import Mathlib

/-!
Shallow embedding of `DynamicAtlasManager` (DiligentCore,
`Graphics/GraphicsTools/src/DynamicAtlasManager.cpp`): a dynamic 2D rectangle
allocator over a fixed `Width × Height` atlas.  The partition tree, the two
ordered free-region indices and the allocated-region map are embedded as pure
data; `Allocate` and `Free` are embedded as state-passing functions.

Machine integers: the C++ code uses `Uint32` throughout.  Coordinates are
modeled as `Nat`; the only place 32-bit wrap-around is observable on legal
inputs is the area computation `it->first.width * it->first.height` inside
`Allocate`, which is modeled explicitly as multiplication modulo `2^32`
(`area32`).  All other arithmetic performed by the code on reachable states
stays below `2^32` (subtraction only happens under a strict `>` guard and
coordinates of in-atlas regions never exceed the atlas size).

The release build is modeled: `VERIFY`/`UNEXPECTED`/`DbgVerify*` are
diagnostics that do not affect state; `UNEXPECTED` followed by `return`
is modeled as returning the unmodified state.
-/

/-- The 32-bit modulus. -/
def U32 : Nat := 2 ^ 32

/-- `UINT_MAX` of the C++ code. -/
def UINT_MAX : Nat := U32 - 1

/-- `DynamicAtlasManager::Region`: an axis-aligned rectangle with `Uint32`
fields `x, y, width, height`.  Componentwise equality. -/
structure Region where
  x : Nat
  y : Nat
  width : Nat
  height : Nat
deriving DecidableEq

/-- `static const Region InvalidRegion{UINT_MAX, UINT_MAX, 0, 0}`. -/
def InvalidRegion : Region := ⟨UINT_MAX, UINT_MAX, 0, 0⟩

/-- `Region{}`: the value-initialized region `(0,0,0,0)` returned by
`Allocate` on failure. -/
def Region.default : Region := ⟨0, 0, 0, 0⟩

/-- `Region::IsEmpty()`: true iff `width == 0 || height == 0`. -/
def Region.IsEmpty (r : Region) : Bool := r.width == 0 || r.height == 0

/-- The `Uint32` product `width * height` as computed by `Allocate`:
multiplication wraps modulo `2^32`. -/
def area32 (r : Region) : Nat := r.width * r.height % U32

/-! ### Ordered map keys

The two free-region maps are `std::map<Region, Node*, Cmp>` with strict-weak
comparators.  The header defining the comparators is not part of the provided
sources; they are modeled from the spec.  A map is embedded as its strictly
sorted list of keys (the mapped `Node*` is recovered from the tree by
searching for the leaf with that region, which is unique on valid states). -/

/-- Strict lexicographic order on quadruples of naturals. -/
def lex4 (a b : Nat × Nat × Nat × Nat) : Bool :=
  if a.1 ≠ b.1 then decide (a.1 < b.1)
  else if a.2.1 ≠ b.2.1 then decide (a.2.1 < b.2.1)
  else if a.2.2.1 ≠ b.2.2.1 then decide (a.2.2.1 < b.2.2.1)
  else decide (a.2.2.2 < b.2.2.2)

/-- Modelled from the spec: the `by-width` free index "orders primarily by
`width`"; "remaining fields break ties to make keys unique"
(width, height, x, y). -/
def widthFirstLt (a b : Region) : Bool :=
  lex4 (a.width, a.height, a.x, a.y) (b.width, b.height, b.x, b.y)

/-- Modelled from the spec: the `by-height` free index "orders primarily by
`height`" (height, width, x, y). -/
def heightFirstLt (a b : Region) : Bool :=
  lex4 (a.height, a.width, a.x, a.y) (b.height, b.width, b.x, b.y)

theorem lex4_irrefl (a : Nat × Nat × Nat × Nat) : lex4 a a = false := by
  simp [lex4]

theorem lex4_eq_of_not_lt {a b : Nat × Nat × Nat × Nat}
    (h1 : lex4 a b = false) (h2 : lex4 b a = false) : a = b := by
  obtain ⟨a1, a2, a3, a4⟩ := a
  obtain ⟨b1, b2, b3, b4⟩ := b
  simp only [lex4] at h1 h2
  split_ifs at h1 h2 <;> simp_all <;> omega

theorem lex4_trans {a b c : Nat × Nat × Nat × Nat}
    (h1 : lex4 a b = true) (h2 : lex4 b c = true) : lex4 a c = true := by
  obtain ⟨a1, a2, a3, a4⟩ := a
  obtain ⟨b1, b2, b3, b4⟩ := b
  obtain ⟨c1, c2, c3, c4⟩ := c
  simp only [lex4] at h1 h2 ⊢
  split_ifs at h1 h2 ⊢ <;> simp_all <;> omega

theorem lex4_asymm {a b : Nat × Nat × Nat × Nat}
    (h1 : lex4 a b = true) : lex4 b a = false := by
  obtain ⟨a1, a2, a3, a4⟩ := a
  obtain ⟨b1, b2, b3, b4⟩ := b
  simp only [lex4] at h1 ⊢
  split_ifs at h1 ⊢ <;> simp_all <;> omega

/-! ### Generic sorted-key lists (the embedding of `std::map` key sets) -/

/-- `emplace` into a sorted key list: inserts `R` in order; if the key is
already present the map is unchanged (C++ `emplace` does not overwrite). -/
def insertSorted (lt : Region → Region → Bool) (R : Region) :
    List Region → List Region
  | [] => [R]
  | a :: as =>
    if lt R a then R :: a :: as
    else if R = a then a :: as
    else a :: insertSorted lt R as

/-- `erase(key)` from a map embedded as a key list (keys are unique, so
filtering is erasing the single occurrence). -/
def eraseKey (R : Region) (l : List Region) : List Region :=
  l.filter (fun a => a ≠ R)

/-- Strictly-sorted predicate for a key list under a strict order `lt`. -/
def SortedBy (lt : Region → Region → Bool) (l : List Region) : Prop :=
  List.Pairwise (fun a b => lt a b = true) l

theorem mem_insertSorted (lt : Region → Region → Bool) (R x : Region) :
    ∀ l : List Region, x ∈ insertSorted lt R l ↔ x = R ∨ x ∈ l := by
  intro l
  induction l with
  | nil => simp [insertSorted]
  | cons a as ih =>
    simp only [insertSorted]
    split_ifs with h1 h2
    · simp [List.mem_cons]
    · subst h2; simp only [List.mem_cons]; tauto
    · simp only [List.mem_cons, ih]; tauto

theorem mem_eraseKey (R x : Region) (l : List Region) :
    x ∈ eraseKey R l ↔ x ∈ l ∧ x ≠ R := by
  simp [eraseKey]

theorem sorted_insertSorted {lt : Region → Region → Bool}
    (ltTrans : ∀ {a b c : Region}, lt a b = true → lt b c = true → lt a c = true)
    (ltConn : ∀ {a b : Region}, lt a b = false → lt b a = false → a = b)
    (R : Region) :
    ∀ {l : List Region}, SortedBy lt l → SortedBy lt (insertSorted lt R l) := by
  intro l
  induction l with
  | nil => intro _; simp [insertSorted, SortedBy]
  | cons a as ih =>
    intro hs
    rw [SortedBy, List.pairwise_cons] at hs
    obtain ⟨ha, has⟩ := hs
    simp only [insertSorted]
    split_ifs with h1 h2
    · rw [SortedBy, List.pairwise_cons]
      constructor
      · intro b hb
        rcases List.mem_cons.mp hb with hb | hb
        · subst hb; exact h1
        · exact ltTrans h1 (ha b hb)
      · exact List.pairwise_cons.mpr ⟨ha, has⟩
    · exact List.pairwise_cons.mpr ⟨ha, has⟩
    · have haR : lt a R = true := by
        cases h3 : lt a R
        · exact absurd (ltConn (Bool.of_not_eq_true h1) h3) h2
        · rfl
      rw [SortedBy, List.pairwise_cons]
      constructor
      · intro b hb
        rcases (mem_insertSorted lt R b as).mp hb with hb | hb
        · subst hb; exact haR
        · exact ha b hb
      · exact ih has

theorem sorted_eraseKey {lt : Region → Region → Bool} (R : Region)
    {l : List Region} (hs : SortedBy lt l) : SortedBy lt (eraseKey R l) := by
  exact List.Pairwise.filter _ hs

theorem sorted_nodup {lt : Region → Region → Bool}
    (ltIrrefl : ∀ a, lt a a = false)
    {l : List Region} (hs : SortedBy lt l) : l.Nodup := by
  induction l with
  | nil => simp
  | cons a as ih =>
    rw [SortedBy, List.pairwise_cons] at hs
    obtain ⟨ha, has⟩ := hs
    rw [List.nodup_cons]
    refine ⟨fun hmem => ?_, ih has⟩
    have := ha a hmem
    rw [ltIrrefl a] at this
    exact Bool.false_ne_true this

theorem sorted_ext {lt : Region → Region → Bool}
    (ltIrrefl : ∀ a, lt a a = false)
    (ltAsymm : ∀ {a b : Region}, lt a b = true → lt b a = false) :
    ∀ {l l' : List Region}, SortedBy lt l → SortedBy lt l' →
    (∀ x, x ∈ l ↔ x ∈ l') → l = l' := by
  intro l
  induction l with
  | nil =>
    intro l' _ _ hm
    cases l' with
    | nil => rfl
    | cons b bs => exact absurd ((hm b).mpr (List.mem_cons_self b bs)) (List.not_mem_nil b)
  | cons a as ih =>
    intro l' hs hs' hm
    cases l' with
    | nil => exact absurd ((hm a).mp (List.mem_cons_self a as)) (List.not_mem_nil a)
    | cons b bs =>
      rw [SortedBy, List.pairwise_cons] at hs hs'
      obtain ⟨ha, has⟩ := hs
      obtain ⟨hb, hbs⟩ := hs'
      have hab : a = b := by
        rcases List.mem_cons.mp ((hm a).mp (List.mem_cons_self a as)) with h | h
        · exact h
        · rcases List.mem_cons.mp ((hm b).mpr (List.mem_cons_self b bs)) with h' | h'
          · exact h'.symm
          · have h1 := ha b h'
            have h2 := hb a h
            rw [ltAsymm h1] at h2
            exact absurd h2 Bool.false_ne_true
      subst hab
      have htails : ∀ x, x ∈ as ↔ x ∈ bs := by
        intro x
        constructor
        · intro hx
          rcases List.mem_cons.mp ((hm x).mp (List.mem_cons.mpr (Or.inr hx))) with h | h
          · subst h
            have := ha x hx
            rw [ltIrrefl x] at this
            exact absurd this Bool.false_ne_true
          · exact h
        · intro hx
          rcases List.mem_cons.mp ((hm x).mpr (List.mem_cons.mpr (Or.inr hx))) with h | h
          · subst h
            have := hb x hx
            rw [ltIrrefl x] at this
            exact absurd this Bool.false_ne_true
          · exact h
      rw [ih has hbs htails]

/-! ### The partition tree

`DynamicAtlasManager::Node` holds its covered `Region R`, the flag
`IsAllocated`, an owned array of `NumChildren` children and a non-owning
parent pointer.  The embedding stores the children inline (a node has
children iff it is internal); the parent pointer is replaced by paths from
the root (`List Nat` of child indices), which is what the pointer denotes. -/

inductive Node where
  | mk (R : Region) (IsAllocated : Bool) (Children : List Node)

/-- The region covered by a node. -/
def Node.R : Node → Region
  | .mk R _ _ => R

/-- The `IsAllocated` flag. -/
def Node.IsAllocated : Node → Bool
  | .mk _ a _ => a

/-- The children array. -/
def Node.Children : Node → List Node
  | .mk _ _ cs => cs

/-- `Node::HasChildren()`: `NumChildren > 0`. -/
def Node.HasChildren (n : Node) : Bool := !n.Children.isEmpty

/-- A free leaf in the sense of the spec: not allocated and no children. -/
def Node.isFreeLeaf (n : Node) : Bool := !n.IsAllocated && !n.HasChildren

/-- `Node::CanMergeChildren()`: every child satisfies
`!Child(i).IsAllocated && !Child(i).HasChildren()` (the C++ loop exits as
soon as one child fails, which computes the same conjunction). -/
def Node.CanMergeChildren (n : Node) : Bool :=
  n.Children.all fun c => !c.IsAllocated && !c.HasChildren

mutual

/-- Boolean structural equality of nodes. -/
def Node.beq : Node → Node → Bool
  | .mk R a cs, .mk R' a' cs' => decide (R = R') && (a == a') && beqNodeList cs cs'

/-- Boolean structural equality of children lists. -/
def beqNodeList : List Node → List Node → Bool
  | [], [] => true
  | c :: cs, d :: ds => Node.beq c d && beqNodeList cs ds
  | _, _ => false

end

mutual

theorem Node.beq_iff : ∀ t t' : Node, Node.beq t t' = true ↔ t = t'
  | .mk R a cs, .mk R' a' cs' => by
    simp only [Node.beq, Bool.and_eq_true, decide_eq_true_eq, beq_iff_eq, Node.mk.injEq]
    rw [beqNodeList_iff]
    tauto

theorem beqNodeList_iff : ∀ l l' : List Node, beqNodeList l l' = true ↔ l = l'
  | [], [] => by simp [beqNodeList]
  | [], _ :: _ => by simp [beqNodeList]
  | _ :: _, [] => by simp [beqNodeList]
  | c :: cs, d :: ds => by
    simp only [beqNodeList, Bool.and_eq_true, List.cons.injEq]
    rw [Node.beq_iff, beqNodeList_iff]

end

instance : DecidableEq Node := fun t t' => decidable_of_iff _ (Node.beq_iff t t')

/-- Structural induction with element-wise hypotheses over the children. -/
theorem Node.indOn (motive : Node → Prop)
    (h : ∀ (R : Region) (a : Bool) (cs : List Node),
      (∀ c ∈ cs, motive c) → motive (.mk R a cs)) : ∀ t, motive t
  | .mk R a cs => h R a cs (fun c hc => Node.indOn motive h c)
termination_by t => sizeOf t
decreasing_by
  have := List.sizeOf_lt_of_mem hc
  simp only [Node.mk.sizeOf_spec]
  omega

mutual

/-- The leaves of the subtree, in left-to-right order, each with its
`IsAllocated` flag. -/
def Node.leafPairs : Node → List (Region × Bool)
  | .mk R a [] => [(R, a)]
  | .mk _ _ (c :: cs) => leafPairsList (c :: cs)

/-- Leaves of a forest, in order. -/
def leafPairsList : List Node → List (Region × Bool)
  | [] => []
  | c :: cs => c.leafPairs ++ leafPairsList cs

end

mutual

/-- The path (list of child indices from this node) of the first leaf with
region `R0` and flag `a0`.  On valid states leaf regions are distinct, so
this is the unique such leaf; it plays the role of the `Node*` stored in
the maps. -/
def Node.findLeafPath : Node → Region → Bool → Option (List Nat)
  | .mk R a [], R0, a0 => if R = R0 ∧ a = a0 then some [] else none
  | .mk _ _ (c :: cs), R0, a0 => findLeafPathList (c :: cs) 0 R0 a0

/-- Search a forest for a leaf, prepending the child index. -/
def findLeafPathList : List Node → Nat → Region → Bool → Option (List Nat)
  | [], _, _, _ => none
  | c :: cs, i, R0, a0 =>
    match c.findLeafPath R0 a0 with
    | some p => some (i :: p)
    | none => findLeafPathList cs (i + 1) R0 a0

end

/-- Dereference a path: the node reached by following the child indices. -/
def getNode : Node → List Nat → Option Node
  | t, [] => some t
  | t, i :: p =>
    match t.Children[i]? with
    | some c => getNode c p
    | none => none

/-- Replace the subtree at a path (identity if the path dangles). -/
def setNode : Node → List Nat → Node → Node
  | _, [], m => m
  | .mk R a cs, i :: p, m =>
    match cs[i]? with
    | some c => .mk R a (cs.set i (setNode c p m))
    | none => .mk R a cs

/-- The parent pointer of the node at a path: `none` at the root. -/
def parentPath : List Nat → Option (List Nat)
  | [] => none
  | p => some p.dropLast

/-! ### The manager state -/

/-- The data of a `DynamicAtlasManager`: atlas size, partition tree, the two
ordered free-region indices (embedded as their strictly sorted key lists) and
the allocated-region map (an `std::unordered_map`; embedded canonically as
its key list sorted in `widthFirstLt` order). -/
structure DynamicAtlasManager where
  m_Width : Nat
  m_Height : Nat
  m_Root : Node
  m_FreeRegionsByWidth : List Region
  m_FreeRegionsByHeight : List Region
  m_AllocatedRegions : List Region
deriving DecidableEq

namespace DynamicAtlasManager

/-- `RegisterNode(N)` for a leaf with region `R` and flag `IsAllocated`:
into the allocated map if allocated, else into both free indices. -/
def RegisterNode (s : DynamicAtlasManager) (R : Region) (IsAllocated : Bool) :
    DynamicAtlasManager :=
  if IsAllocated then
    { s with m_AllocatedRegions := insertSorted widthFirstLt R s.m_AllocatedRegions }
  else
    { s with
      m_FreeRegionsByWidth := insertSorted widthFirstLt R s.m_FreeRegionsByWidth
      m_FreeRegionsByHeight := insertSorted heightFirstLt R s.m_FreeRegionsByHeight }

/-- `UnregisterNode(N)`: the exact inverse of `RegisterNode`. -/
def UnregisterNode (s : DynamicAtlasManager) (R : Region) (IsAllocated : Bool) :
    DynamicAtlasManager :=
  if IsAllocated then
    { s with m_AllocatedRegions := eraseKey R s.m_AllocatedRegions }
  else
    { s with
      m_FreeRegionsByWidth := eraseKey R s.m_FreeRegionsByWidth
      m_FreeRegionsByHeight := eraseKey R s.m_FreeRegionsByHeight }

/-- The constructor `DynamicAtlasManager(Width, Height)`: a single free root
leaf covering the whole atlas, registered in both free indices. -/
def new (Width Height : Nat) : DynamicAtlasManager :=
  RegisterNode
    { m_Width := Width
      m_Height := Height
      m_Root := Node.mk ⟨0, 0, Width, Height⟩ false []
      m_FreeRegionsByWidth := []
      m_FreeRegionsByHeight := []
      m_AllocatedRegions := [] }
    ⟨0, 0, Width, Height⟩ false

end DynamicAtlasManager

/-! ### Allocate -/

namespace DynamicAtlasManager

/-- Candidate A: in the `by-width` index, `lower_bound(Region{0,0,Width,0})`
— on the sorted key list, dropping the keys with `width < Width` — then
advance while `height < Height`.  (On a `widthFirstLt`-sorted list,
`lower_bound` of `{0,0,Width,0}` is exactly the first key with
`width ≥ Width`, because `(Width,0,0,0)` is lexicographically minimal among
keys of that width.) -/
def candidateByWidth (freeByWidth : List Region) (Width Height : Nat) :
    Option Region :=
  (freeByWidth.dropWhile fun r => decide (r.width < Width)).find?
    fun r => !decide (r.height < Height)

/-- Candidate B: symmetric search in the `by-height` index. -/
def candidateByHeight (freeByHeight : List Region) (Width Height : Nat) :
    Option Region :=
  (freeByHeight.dropWhile fun r => decide (r.height < Height)).find?
    fun r => !decide (r.width < Width)

/-- `AreaW` / `AreaH`: the `Uint32` area of the candidate, `0` when the
iterator is at `end()`. -/
def candArea : Option Region → Nat
  | some r => area32 r
  | none => 0

/-- The source-leaf selection of `Allocate`: the smaller-area candidate,
`it_h` on a tie (`AreaW < AreaH ? it_w->second : it_h->second`); `none`
when both areas are `0`. -/
def chooseSource (s : DynamicAtlasManager) (Width Height : Nat) :
    Option Region :=
  let it_w := candidateByWidth s.m_FreeRegionsByWidth Width Height
  let it_h := candidateByHeight s.m_FreeRegionsByHeight Width Height
  let AreaW := candArea it_w
  let AreaH := candArea it_h
  if 0 < AreaW ∧ 0 < AreaH then
    if AreaW < AreaH then it_w else it_h
  else if 0 < AreaW then it_w
  else if 0 < AreaH then it_h
  else none

/-- The regions passed to `pSrcNode->Split(...)` by `Allocate` for a source
leaf region `R`, in order; `[]` in the exact-fit case (no split). -/
def splitRegions (R : Region) (Width Height : Nat) : List Region :=
  if R.width > Width ∧ R.height > Height then
    if R.width > R.height then
      [⟨R.x, R.y, Width, Height⟩,
       ⟨R.x + Width, R.y, R.width - Width, R.height⟩,
       ⟨R.x, R.y + Height, Width, R.height - Height⟩]
    else
      [⟨R.x, R.y, Width, Height⟩,
       ⟨R.x, R.y + Height, R.width, R.height - Height⟩,
       ⟨R.x + Width, R.y, R.width - Width, Height⟩]
  else if R.width > Width then
    [⟨R.x, R.y, Width, Height⟩,
     ⟨R.x + Width, R.y, R.width - Width, R.height⟩]
  else if R.height > Height then
    [⟨R.x, R.y, Width, Height⟩,
     ⟨R.x, R.y + Height, R.width, R.height - Height⟩]
  else []

/-- `Node::Split` creates the children (all free); the `Allocate` epilogue
then sets `Child(0).IsAllocated = true`.  Both steps are fused here: the
child nodes for the split regions, the first one allocated. -/
def makeChildren : List Region → List Node
  | [] => []
  | c0 :: rest => Node.mk c0 true [] :: rest.map fun r => Node.mk r false []

/-- The `Allocate` epilogue registering every new leaf in order
(`ProcessChildren` + `RegisterNode`, with `Child(0)` already allocated). -/
def registerAll (s : DynamicAtlasManager) : List (Region × Bool) → DynamicAtlasManager
  | [] => s
  | (R, a) :: rest => registerAll (s.RegisterNode R a) rest

/-- `DynamicAtlasManager::Allocate(Width, Height)`.  Returns the placed
region (`Region{}` on failure) and the new state.  The `Node*` stored in the
chosen map entry is recovered as the path of the (unique) free leaf with the
chosen region; the inner `none` arm is unreachable on valid states because
the free indices only hold regions of free leaves. -/
def Allocate (s : DynamicAtlasManager) (Width Height : Nat) :
    Region × DynamicAtlasManager :=
  match chooseSource s Width Height with
  | none => (Region.default, s)
  | some R =>
    match s.m_Root.findLeafPath R false with
    | none => (Region.default, s)
    | some p =>
      let s1 := s.UnregisterNode R false
      match splitRegions R Width Height with
      | [] =>
        let s2 := { s1 with m_Root := setNode s1.m_Root p (Node.mk R true []) }
        (R, s2.RegisterNode R true)
      | c0 :: rest =>
        let s2 :=
          { s1 with
            m_Root := setNode s1.m_Root p (Node.mk R false (makeChildren (c0 :: rest))) }
        (c0, registerAll s2 ((c0, true) :: rest.map fun r => (r, false)))

/-! ### Free -/

/-- `ProcessChildren` + `UnregisterNode(Child)` over the children of the
node being merged. -/
def unregisterAll (s : DynamicAtlasManager) : List Node → DynamicAtlasManager
  | [] => s
  | c :: cs => unregisterAll (s.UnregisterNode c.R c.IsAllocated) cs

/-- Auxiliary measure for the merge ascent: a path of length `n` reaches the
root after at most `n + 1` steps. -/
def pathMeasure : Option (List Nat) → Nat
  | none => 0
  | some p => p.length + 1

theorem pathMeasure_parentPath (p : List Nat) :
    pathMeasure (parentPath p) ≤ p.length := by
  cases p with
  | nil => simp [parentPath, pathMeasure]
  | cons i q => simp [parentPath, pathMeasure]

/-- The bottom-up merge loop of `Free`:
`while (N != nullptr && N->CanMergeChildren())` — unregister every child,
`MergeChildren` (drop the children), re-register `N`, ascend to the parent.
`none` is the null parent pointer. -/
def mergeAscend (s : DynamicAtlasManager) : Option (List Nat) → DynamicAtlasManager
  | none => s
  | some p =>
    match getNode s.m_Root p with
    | none => s
    | some N =>
      if N.CanMergeChildren then
        let s1 := unregisterAll s N.Children
        let s2 := { s1 with m_Root := setNode s1.m_Root p (Node.mk N.R N.IsAllocated []) }
        let s3 := s2.RegisterNode N.R N.IsAllocated
        mergeAscend s3 (parentPath p)
      else s
termination_by o => pathMeasure o
decreasing_by
  exact Nat.lt_of_le_of_lt (pathMeasure_parentPath p) (Nat.lt_succ_self _)

/-- `DynamicAtlasManager::Free(Region&& R)`.  Returns the new state and the
final value of the caller's region (set to `InvalidRegion` on the success
path only).  When `R` is not among the allocated regions, `UNEXPECTED`
reports and the call returns with no state change.  The path lookup stands
for the `Node*` stored in the allocated map; its `none` arm is unreachable
on valid states. -/
def Free (s : DynamicAtlasManager) (R : Region) : DynamicAtlasManager × Region :=
  if R ∈ s.m_AllocatedRegions then
    match s.m_Root.findLeafPath R true with
    | none => (s, R)
    | some p =>
      let s1 := s.UnregisterNode R true
      let s2 := { s1 with m_Root := setNode s1.m_Root p (Node.mk R false []) }
      let s3 := s2.RegisterNode R false
      (mergeAscend s3 (parentPath p), InvalidRegion)
  else (s, R)

end DynamicAtlasManager

/-! ### Geometry -/

/-- Region `c` lies inside region `p` (half-open boxes). -/
def containsR (p c : Region) : Prop :=
  p.x ≤ c.x ∧ c.x + c.width ≤ p.x + p.width ∧
  p.y ≤ c.y ∧ c.y + c.height ≤ p.y + p.height

/-- Regions `a` and `b` do not overlap (half-open boxes). -/
def disjointR (a b : Region) : Prop :=
  a.x + a.width ≤ b.x ∨ b.x + b.width ≤ a.x ∨
  a.y + a.height ≤ b.y ∨ b.y + b.height ≤ a.y

instance (p c : Region) : Decidable (containsR p c) := by
  unfold containsR; infer_instance

instance (a b : Region) : Decidable (disjointR a b) := by
  unfold disjointR; infer_instance

theorem containsR_refl (a : Region) : containsR a a := by
  unfold containsR; omega

theorem containsR_trans {a b c : Region} (h1 : containsR a b)
    (h2 : containsR b c) : containsR a c := by
  unfold containsR at *; omega

theorem disjointR_symm {a b : Region} (h : disjointR a b) : disjointR b a := by
  unfold disjointR at *; omega

theorem disjointR_mono {a b x y : Region} (hx : containsR a x)
    (hy : containsR b y) (h : disjointR a b) : disjointR x y := by
  unfold containsR disjointR at *; omega

theorem not_disjointR_of_containsR {a b : Region} (hb : containsR a b)
    (hw : 0 < b.width) (hh : 0 < b.height) : ¬disjointR a b := by
  unfold containsR disjointR at *; omega

theorem ne_of_disjointR {a b : Region} (h : disjointR a b)
    (hw : 0 < a.width) (hh : 0 < a.height) : a ≠ b := by
  intro he
  subst he
  unfold disjointR at h
  omega

/-! ### Validity and canonicity of the partition tree -/

/-- A well-formed partition subtree: every node covers a nonempty region;
an internal node is never allocated, has at least two children (`Split`
requires it), the children lie inside the parent and are pairwise
disjoint. -/
inductive Valid : Node → Prop
  | leaf (R : Region) (a : Bool) :
      0 < R.width → 0 < R.height → Valid (.mk R a [])
  | node (R : Region) (cs : List Node) :
      0 < R.width → 0 < R.height →
      2 ≤ cs.length →
      (∀ c ∈ cs, containsR R c.R) →
      (∀ c ∈ cs, Valid c) →
      List.Pairwise (fun c d => disjointR c.R d.R) cs →
      Valid (.mk R false cs)

/-- All children of a node are free leaves (the merge condition of the
spec). -/
def AllFreeChildren (n : Node) : Prop := ∀ c ∈ n.Children, c.isFreeLeaf = true

/-- The tree is in canonical (maximally merged) form everywhere except
possibly at the one node addressed by `p?`: no other internal node has all
children free leaves. -/
def CanonicalAway (t : Node) (p? : Option (List Nat)) : Prop :=
  ∀ q n, getNode t q = some n → n.Children ≠ [] → some q ≠ p? → ¬AllFreeChildren n

/-- Fully canonical: no internal node has all children free leaves. -/
def Canonical (t : Node) : Prop := CanonicalAway t none

theorem Node.eta (n : Node) : n = .mk n.R n.IsAllocated n.Children := by
  cases n; rfl

theorem Node.isFreeLeaf_shape {n : Node} (h : n.isFreeLeaf = true) :
    n = .mk n.R false [] := by
  cases n with
  | mk R a cs =>
    simp only [Node.isFreeLeaf, Node.IsAllocated, Node.HasChildren, Node.Children,
      Bool.and_eq_true, Bool.not_eq_true'] at h
    obtain ⟨h1, h2⟩ := h
    have h3 : cs = [] := by simpa using h2
    simp [Node.R, Node.IsAllocated, Node.Children, h1, h3]

theorem Valid.width_pos {n : Node} (h : Valid n) : 0 < n.R.width := by
  cases h <;> simpa [Node.R]

theorem Valid.height_pos {n : Node} (h : Valid n) : 0 < n.R.height := by
  cases h <;> simpa [Node.R]

theorem Valid.child {n : Node} (h : Valid n) {c : Node}
    (hc : c ∈ n.Children) : Valid c := by
  cases h with
  | leaf R a _ _ => simp [Node.Children] at hc
  | node R cs _ _ _ _ hv _ => exact hv c (by simpa [Node.Children] using hc)

theorem Valid.not_alloc_of_children {R : Region} {a : Bool} {cs : List Node}
    (h : Valid (.mk R a cs)) (hcs : cs ≠ []) : a = false := by
  cases h with
  | leaf _ _ _ _ => exact absurd rfl hcs
  | node _ _ _ _ _ _ _ _ => rfl

/-- `CanMergeChildren` computes exactly "every child is a free leaf". -/
theorem canMerge_iff_allFree (n : Node) :
    n.CanMergeChildren = true ↔ AllFreeChildren n := by
  simp [Node.CanMergeChildren, AllFreeChildren, Node.isFreeLeaf, List.all_eq_true]

/-! ### Path lemmas for `getNode` / `setNode` -/

theorem list_set_self {α : Type} (l : List α) (i : Nat) (c : α)
    (h : l[i]? = some c) : l.set i c = l := by
  induction l generalizing i with
  | nil => simp at h
  | cons a as ih =>
    cases i with
    | zero => simp at h; simp [List.set, h]
    | succ j => simp at h; simp [List.set, ih j h]

theorem list_decomp_at {α : Type} (l : List α) (i : Nat) (c : α)
    (h : l[i]? = some c) : l = l.take i ++ c :: l.drop (i + 1) := by
  obtain ⟨hlt, he⟩ := List.getElem?_eq_some_iff.mp h
  have := List.set_eq_take_cons_drop c hlt
  rw [← he] at this ⊢
  rw [← this, list_set_self l i _ (by simp [List.getElem?_eq_some_iff, hlt])]

theorem getNode_cons (t : Node) (i : Nat) (p : List Nat) :
    getNode t (i :: p) =
      match t.Children[i]? with
      | some c => getNode c p
      | none => none := rfl

theorem getNode_append : ∀ (p q : List Nat) (t : Node),
    getNode t (p ++ q) = (getNode t p).bind fun u => getNode u q := by
  intro p
  induction p with
  | nil => intro q t; rfl
  | cons i p' ih =>
    intro q t
    rw [List.cons_append, getNode_cons, getNode_cons]
    cases t.Children[i]? with
    | none => rfl
    | some c => exact ih q c

theorem getNode_children_ne_nil {t : Node} {i : Nat} {p : List Nat} {n : Node}
    (h : getNode t (i :: p) = some n) : t.Children ≠ [] := by
  rw [getNode_cons] at h
  cases hc : t.Children[i]? with
  | none => rw [hc] at h; exact absurd h (by simp)
  | some c =>
    intro he
    rw [he] at hc
    simp at hc

theorem setNode_nil (t m : Node) : setNode t [] m = m := by
  cases t; rfl

theorem setNode_children_length : ∀ (p : List Nat) (t m : Node),
    (setNode t p m).Children.length = t.Children.length ∨ p = [] := by
  intro p t m
  cases p with
  | nil => exact Or.inr rfl
  | cons i p' =>
    cases t with
    | mk R a cs =>
      left
      simp only [setNode]
      cases cs[i]? <;> simp [Node.Children]

theorem setNode_R {p : List Nat} {t m n : Node}
    (h : getNode t p = some n) (hR : m.R = n.R) : (setNode t p m).R = t.R := by
  cases p with
  | nil =>
    simp only [getNode] at h
    cases h
    simpa [setNode] using hR
  | cons i p' =>
    cases t with
    | mk R a cs =>
      simp only [setNode]
      cases cs[i]? <;> simp [Node.R]

theorem setNode_append : ∀ (q r : List Nat) (t u m : Node),
    getNode t q = some u →
    setNode t (q ++ r) m = setNode t q (setNode u r m) := by
  intro q
  induction q with
  | nil =>
    intro r t u m h
    simp only [getNode] at h
    cases h
    rw [List.nil_append, setNode_nil]
  | cons i q' ih =>
    intro r t u m h
    cases t with
    | mk R a cs =>
      rw [getNode_cons] at h
      simp only [Node.Children] at h
      cases hc : cs[i]? with
      | none => rw [hc] at h; exact absurd h (by simp)
      | some c =>
        rw [hc] at h
        simp only [List.cons_append, setNode, hc]
        exact congrArg (fun z => Node.mk R a (cs.set i z)) (ih r c u m h)

theorem getNode_setNode_self : ∀ (p : List Nat) (t n m : Node),
    getNode t p = some n → getNode (setNode t p m) p = some m := by
  intro p
  induction p with
  | nil => intro t n m _; rw [setNode_nil]; rfl
  | cons i p' ih =>
    intro t n m h
    cases t with
    | mk R a cs =>
      rw [getNode_cons] at h
      simp only [Node.Children] at h
      cases hc : cs[i]? with
      | none => rw [hc] at h; exact absurd h (by simp)
      | some c =>
        rw [hc] at h
        have hlt : i < cs.length := (List.getElem?_eq_some_iff.mp hc).1
        simp only [setNode, hc]
        rw [getNode_cons]
        simp only [Node.Children]
        rw [List.getElem?_set_self (by simpa using hlt)]
        exact ih c n m h

theorem setNode_id : ∀ (p : List Nat) (t n : Node),
    getNode t p = some n → setNode t p n = t := by
  intro p
  induction p with
  | nil =>
    intro t n h
    simp only [getNode] at h
    cases h
    exact setNode_nil t t
  | cons i p' ih =>
    intro t n h
    cases t with
    | mk R a cs =>
      rw [getNode_cons] at h
      simp only [Node.Children] at h
      cases hc : cs[i]? with
      | none => rw [hc] at h; exact absurd h (by simp)
      | some c =>
        rw [hc] at h
        simp only [setNode, hc]
        rw [ih c n h, list_set_self cs i c hc]

theorem getNode_setNode_extend {p : List Nat} {t n : Node}
    (h : getNode t p = some n) (r : List Nat) (m : Node) :
    getNode (setNode t p m) (p ++ r) = getNode m r := by
  rw [getNode_append, getNode_setNode_self p t n m h]
  rfl

theorem getNode_setNode_diverge : ∀ (p q : List Nat) (t m : Node),
    (∀ r, q ≠ p ++ r) → (∀ r, p ≠ q ++ r) →
    getNode (setNode t p m) q = getNode t q := by
  intro p
  induction p with
  | nil => intro q t m h1 _; exact absurd rfl (h1 q)
  | cons i p' ih =>
    intro q t m h1 h2
    cases q with
    | nil => exact absurd rfl (h2 (i :: p'))
    | cons j q' =>
      cases t with
      | mk R a cs =>
        simp only [setNode]
        cases hc : cs[i]? with
        | none => rfl
        | some c =>
          rw [getNode_cons, getNode_cons]
          simp only [Node.Children]
          by_cases hij : i = j
          · subst hij
            have hlt : i < cs.length := (List.getElem?_eq_some_iff.mp hc).1
            rw [List.getElem?_set_self (by simpa using hlt), hc]
            exact ih q' c m
              (fun r he => h1 r (by rw [he]; rfl))
              (fun r he => h2 r (by rw [he]; rfl))
          · rw [List.getElem?_set_ne hij]

/-! ### Leaf lists -/

theorem leafPairs_of_ne_nil (R : Region) (a : Bool) {cs : List Node}
    (h : cs ≠ []) : (Node.mk R a cs).leafPairs = leafPairsList cs := by
  cases cs with
  | nil => exact absurd rfl h
  | cons c cs' => rfl

theorem leafPairsList_append : ∀ l1 l2 : List Node,
    leafPairsList (l1 ++ l2) = leafPairsList l1 ++ leafPairsList l2 := by
  intro l1 l2
  induction l1 with
  | nil => rfl
  | cons c cs ih => simp [leafPairsList, ih]

theorem mem_leafPairsList {x : Region × Bool} : ∀ {cs : List Node},
    x ∈ leafPairsList cs ↔ ∃ c ∈ cs, x ∈ c.leafPairs := by
  intro cs
  induction cs with
  | nil => simp [leafPairsList]
  | cons c rest ih =>
    simp only [leafPairsList, List.mem_append, ih, List.mem_cons]
    constructor
    · rintro (h | ⟨d, hd, hx⟩)
      · exact ⟨c, Or.inl rfl, h⟩
      · exact ⟨d, Or.inr hd, hx⟩
    · rintro ⟨d, hd | hd, hx⟩
      · subst hd; exact Or.inl hx
      · exact Or.inr ⟨d, hd, hx⟩

/-- The central surgery lemma: the leaves of the tree split around the
leaves of the subtree at any valid path, and replacing that subtree
replaces exactly that segment. -/
theorem leafPairs_decomp : ∀ (p : List Nat) (t n : Node), getNode t p = some n →
    ∃ A B, t.leafPairs = A ++ n.leafPairs ++ B ∧
      ∀ m, (setNode t p m).leafPairs = A ++ m.leafPairs ++ B := by
  intro p
  induction p with
  | nil =>
    intro t n h
    simp only [getNode] at h
    cases h
    exact ⟨[], [], by simp, fun m => by simp [setNode_nil]⟩
  | cons i p' ih =>
    intro t n h
    cases t with
    | mk R a cs =>
      rw [getNode_cons] at h
      simp only [Node.Children] at h
      cases hc : cs[i]? with
      | none => rw [hc] at h; exact absurd h (by simp)
      | some c =>
        rw [hc] at h
        have hlt : i < cs.length := (List.getElem?_eq_some_iff.mp hc).1
        have hcs_ne : cs ≠ [] := by
          intro he; subst he; simp at hlt
        obtain ⟨A', B', hdec, hset⟩ := ih c n h
        refine ⟨leafPairsList (cs.take i) ++ A',
                B' ++ leafPairsList (cs.drop (i + 1)), ?_, ?_⟩
        · rw [leafPairs_of_ne_nil R a hcs_ne]
          conv_lhs => rw [list_decomp_at cs i c hc]
          rw [show c :: cs.drop (i + 1) = [c] ++ cs.drop (i + 1) from rfl,
            leafPairsList_append, leafPairsList_append]
          simp [leafPairsList, hdec, List.append_assoc]
        · intro m
          simp only [setNode, hc]
          have hne' : cs.set i (setNode c p' m) ≠ [] := by
            intro he
            have hlen0 : (cs.set i (setNode c p' m)).length = 0 := by rw [he]; rfl
            rw [List.length_set] at hlen0
            omega
          rw [leafPairs_of_ne_nil R a hne']
          rw [List.set_eq_take_cons_drop _ hlt]
          rw [show setNode c p' m :: cs.drop (i + 1) =
            [setNode c p' m] ++ cs.drop (i + 1) from rfl,
            leafPairsList_append, leafPairsList_append]
          simp [leafPairsList, hset m, List.append_assoc]

theorem valid_pairs_facts : ∀ t, Valid t → ∀ x ∈ t.leafPairs,
    containsR t.R x.1 ∧ 0 < x.1.width ∧ 0 < x.1.height := by
  intro t
  induction t using Node.indOn with
  | h R a cs ih =>
    intro hv x hx
    cases cs with
    | nil =>
      simp only [Node.leafPairs, List.mem_singleton] at hx
      subst hx
      cases hv with
      | leaf _ _ hw hh => exact ⟨containsR_refl _, hw, hh⟩
      | node _ _ _ _ hlen _ _ _ => simp at hlen
    | cons c cs' =>
      cases hv with
      | node _ _ hw hh hlen hcont hvalid hdisj =>
        rw [leafPairs_of_ne_nil _ _ (by simp)] at hx
        obtain ⟨c', hc', hx'⟩ := mem_leafPairsList.mp hx
        have hfacts := ih c' hc' (hvalid c' hc') x hx'
        exact ⟨containsR_trans (by simpa [Node.R] using hcont c' hc') hfacts.1,
          hfacts.2⟩

theorem pairwise_leafPairsList : ∀ cs : List Node,
    (∀ c ∈ cs, Valid c) →
    (∀ c ∈ cs, List.Pairwise (fun x y => disjointR x.1 y.1) c.leafPairs) →
    List.Pairwise (fun c d => disjointR c.R d.R) cs →
    List.Pairwise (fun x y => disjointR x.1 y.1) (leafPairsList cs) := by
  intro cs
  induction cs with
  | nil => intro _ _ _; simp [leafPairsList]
  | cons c rest ih =>
    intro hval hpw hdisj
    rw [List.pairwise_cons] at hdisj
    simp only [leafPairsList]
    rw [List.pairwise_append]
    refine ⟨hpw c (by simp),
      ih (fun d hd => hval d (by simp [hd]))
         (fun d hd => hpw d (by simp [hd])) hdisj.2, ?_⟩
    intro x hx y hy
    obtain ⟨d, hd, hyd⟩ := mem_leafPairsList.mp hy
    have hxc := (valid_pairs_facts c (hval c (by simp)) x hx).1
    have hyd' := (valid_pairs_facts d (hval d (by simp [hd])) y hyd).1
    exact disjointR_mono hxc hyd' (hdisj.1 d hd)

theorem valid_pairs_pairwise : ∀ t, Valid t →
    List.Pairwise (fun x y => disjointR x.1 y.1) t.leafPairs := by
  intro t
  induction t using Node.indOn with
  | h R a cs ih =>
    intro hv
    cases cs with
    | nil => simp [Node.leafPairs]
    | cons c cs' =>
      cases hv with
      | node _ _ hw hh hlen hcont hvalid hdisj =>
        rw [leafPairs_of_ne_nil _ _ (by simp)]
        exact pairwise_leafPairsList _ hvalid
          (fun d hd => ih d hd (hvalid d hd)) hdisj

/-- On a valid tree the leaf regions are pairwise distinct (in particular a
region occurs at most once among the leaves, with a single flag). -/
theorem valid_pairs_ne : ∀ t, Valid t →
    List.Pairwise (fun x y : Region × Bool => x.1 ≠ y.1) t.leafPairs := by
  intro t hv
  have hpw := valid_pairs_pairwise t hv
  have hfacts := valid_pairs_facts t hv
  exact hpw.imp_of_mem fun {x y} hx _ hd =>
    ne_of_disjointR hd (hfacts x hx).2.1 (hfacts x hx).2.2

/-! ### `findLeafPath`: soundness, completeness, uniqueness -/

theorem findLeafPathList_sound : ∀ (cs : List Node) (i : Nat) (R0 : Region)
    (a0 : Bool) (q : List Nat),
    findLeafPathList cs i R0 a0 = some q →
    (∀ c ∈ cs, ∀ p', c.findLeafPath R0 a0 = some p' →
      getNode c p' = some (.mk R0 a0 [])) →
    ∃ j c p', q = (i + j) :: p' ∧ cs[j]? = some c ∧
      getNode c p' = some (.mk R0 a0 []) := by
  intro cs
  induction cs with
  | nil => intro i R0 a0 q h _; simp [findLeafPathList] at h
  | cons c rest ih =>
    intro i R0 a0 q h hsound
    simp only [findLeafPathList] at h
    cases hfc : c.findLeafPath R0 a0 with
    | some p' =>
      rw [hfc] at h
      simp only [Option.some.injEq] at h
      refine ⟨0, c, p', ?_, by simp, hsound c (by simp) p' hfc⟩
      rw [← h]
      simp
    | none =>
      rw [hfc] at h
      obtain ⟨j, c', p', hq, hget, hnode⟩ :=
        ih (i + 1) R0 a0 q h (fun d hd => hsound d (by simp [hd]))
      refine ⟨j + 1, c', p', ?_, by simpa using hget, hnode⟩
      rw [hq]
      congr 1
      omega

theorem findLeafPath_sound : ∀ (t : Node) (R0 : Region) (a0 : Bool)
    (p : List Nat), t.findLeafPath R0 a0 = some p →
    getNode t p = some (.mk R0 a0 []) := by
  intro t
  induction t using Node.indOn with
  | h R a cs ih =>
    intro R0 a0 p hf
    cases cs with
    | nil =>
      simp only [Node.findLeafPath] at hf
      split_ifs at hf with hcond
      · simp only [Option.some.injEq] at hf
        subst hf
        simp [getNode, hcond.1, hcond.2]
    | cons c cs' =>
      simp only [Node.findLeafPath] at hf
      obtain ⟨j, c', p', hq, hget, hnode⟩ :=
        findLeafPathList_sound (c :: cs') 0 R0 a0 p hf
          (fun d hd p' h' => ih d hd R0 a0 p' h')
      subst hq
      rw [getNode_cons]
      simp only [Node.Children, Nat.zero_add]
      rw [hget]
      exact hnode

theorem findLeafPathList_complete : ∀ (cs : List Node) (i : Nat) (R0 : Region)
    (a0 : Bool),
    (∀ c ∈ cs, (R0, a0) ∈ c.leafPairs → ∃ p, c.findLeafPath R0 a0 = some p) →
    (R0, a0) ∈ leafPairsList cs → ∃ q, findLeafPathList cs i R0 a0 = some q := by
  intro cs
  induction cs with
  | nil => intro i R0 a0 _ h; simp [leafPairsList] at h
  | cons c rest ih =>
    intro i R0 a0 hcomp hmem
    simp only [findLeafPathList]
    cases hfc : c.findLeafPath R0 a0 with
    | some p' => exact ⟨i :: p', rfl⟩
    | none =>
      simp only [leafPairsList, List.mem_append] at hmem
      rcases hmem with hmem | hmem
      · obtain ⟨p, hp⟩ := hcomp c (by simp) hmem
        rw [hfc] at hp
        exact absurd hp (by simp)
      · exact ih (i + 1) R0 a0 (fun d hd => hcomp d (by simp [hd])) hmem

theorem findLeafPath_complete : ∀ (t : Node) (R0 : Region) (a0 : Bool),
    (R0, a0) ∈ t.leafPairs → ∃ p, t.findLeafPath R0 a0 = some p := by
  intro t
  induction t using Node.indOn with
  | h R a cs ih =>
    intro R0 a0 hmem
    cases cs with
    | nil =>
      simp only [Node.leafPairs, List.mem_singleton, Prod.mk.injEq] at hmem
      exact ⟨[], by simp [Node.findLeafPath, hmem.1, hmem.2]⟩
    | cons c cs' =>
      rw [leafPairs_of_ne_nil _ _ (by simp)] at hmem
      simp only [Node.findLeafPath]
      exact findLeafPathList_complete (c :: cs') 0 R0 a0
        (fun d hd => ih d hd R0 a0) hmem

theorem leaf_at_path_mem {t : Node} {p : List Nat} {R0 : Region} {a0 : Bool}
    (h : getNode t p = some (.mk R0 a0 [])) : (R0, a0) ∈ t.leafPairs := by
  obtain ⟨A, B, hdec, _⟩ := leafPairs_decomp p t _ h
  rw [hdec]
  simp [Node.leafPairs]

/-- On a valid tree, two distinct paths cannot address leaves with the same
region. -/
theorem leaf_path_unique : ∀ (p q : List Nat) (t : Node)
    (R1 R2 : Region) (a1 a2 : Bool), Valid t →
    getNode t p = some (.mk R1 a1 []) → getNode t q = some (.mk R2 a2 []) →
    p ≠ q → R1 ≠ R2 := by
  intro p
  induction p with
  | nil =>
    intro q t R1 R2 a1 a2 _ hp hq hne
    simp only [getNode] at hp
    cases hp
    cases q with
    | nil => exact absurd rfl hne
    | cons j q' =>
      rw [getNode_cons] at hq
      simp only [Node.Children] at hq
      simp at hq
  | cons i p' ih =>
    intro q t R1 R2 a1 a2 hv hp hq hne
    cases q with
    | nil =>
      simp only [getNode] at hq
      cases hq
      rw [getNode_cons] at hp
      simp only [Node.Children] at hp
      simp at hp
    | cons j q' =>
      cases t with
      | mk R a cs =>
        rw [getNode_cons] at hp hq
        simp only [Node.Children] at hp hq
        cases hci : cs[i]? with
        | none => rw [hci] at hp; exact absurd hp (by simp)
        | some ci =>
          rw [hci] at hp
          cases hcj : cs[j]? with
          | none => rw [hcj] at hq; exact absurd hq (by simp)
          | some cj =>
            rw [hcj] at hq
            by_cases hij : i = j
            · subst hij
              rw [hci] at hcj
              cases hcj
              exact ih q' ci R1 R2 a1 a2
                (hv.child (List.getElem?_mem (by simpa [Node.Children] using hci)))
                hp hq (fun he => hne (by rw [he]))
            · have hdisj : disjointR ci.R cj.R := by
                cases hv with
                | leaf _ _ _ _ => simp at hci
                | node _ _ _ _ _ _ _ hpw =>
                  obtain ⟨hi, hgi⟩ := List.getElem?_eq_some_iff.mp hci
                  obtain ⟨hj, hgj⟩ := List.getElem?_eq_some_iff.mp hcj
                  rw [List.pairwise_iff_getElem] at hpw
                  rcases Nat.lt_or_ge i j with hlt | hge
                  · have := hpw i j hi hj hlt
                    rw [hgi, hgj] at this
                    exact this
                  · have hlt' : j < i := Nat.lt_of_le_of_ne hge (Ne.symm hij)
                    have := hpw j i hj hi hlt'
                    rw [hgi, hgj] at this
                    exact disjointR_symm this
              have hvi : Valid ci := hv.child (List.getElem?_mem
                (by simpa [Node.Children] using hci))
              have hvj : Valid cj := hv.child (List.getElem?_mem
                (by simpa [Node.Children] using hcj))
              have h1 := valid_pairs_facts ci hvi _ (leaf_at_path_mem hp)
              have h2 := valid_pairs_facts cj hvj _ (leaf_at_path_mem hq)
              exact ne_of_disjointR
                (disjointR_mono h1.1 h2.1 hdisj) h1.2.1 h1.2.2

/-! ### Validity and canonicity under subtree replacement -/

theorem valid_getNode : ∀ (p : List Nat) (t n : Node),
    Valid t → getNode t p = some n → Valid n := by
  intro p
  induction p with
  | nil =>
    intro t n hv h
    simp only [getNode] at h
    cases h
    exact hv
  | cons i p' ih =>
    intro t n hv h
    rw [getNode_cons] at h
    cases hc : t.Children[i]? with
    | none => rw [hc] at h; exact absurd h (by simp)
    | some c =>
      rw [hc] at h
      exact ih c n (hv.child (List.getElem?_mem hc)) h

theorem valid_setNode : ∀ (p : List Nat) (t n m : Node),
    Valid t → getNode t p = some n → Valid m → m.R = n.R →
    Valid (setNode t p m) := by
  intro p
  induction p with
  | nil =>
    intro t n m _ h hm _
    simp only [getNode] at h
    cases h
    rw [setNode_nil]
    exact hm
  | cons i p' ih =>
    intro t n m hv h hm hR
    cases t with
    | mk R a cs =>
      rw [getNode_cons] at h
      simp only [Node.Children] at h
      cases hc : cs[i]? with
      | none => rw [hc] at h; exact absurd h (by simp)
      | some c =>
        rw [hc] at h
        simp only [setNode, hc]
        cases hv with
        | leaf _ _ _ _ => simp at hc
        | node _ _ hw hh hlen hcont hvalid hdisj =>
          have hcR : (setNode c p' m).R = c.R := setNode_R h hR
          refine Valid.node R _ hw hh (by simpa using hlen) ?_ ?_ ?_
          · intro d hd
            rcases List.mem_or_eq_of_mem_set hd with hd | hd
            · exact hcont d hd
            · subst hd
              rw [hcR]
              exact hcont c (List.getElem?_mem hc)
          · intro d hd
            rcases List.mem_or_eq_of_mem_set hd with hd | hd
            · exact hvalid d hd
            · subst hd
              exact ih c n m (hvalid c (List.getElem?_mem hc)) h hm hR
          · rw [← List.pairwise_map (f := Node.R)] at hdisj ⊢
            rw [List.map_set, hcR,
              list_set_self _ i c.R (by simp [hc])]
            exact hdisj

theorem path_trichotomy : ∀ (p q : List Nat),
    (∃ r, q = p ++ r) ∨ (∃ r, p = q ++ r ∧ r ≠ []) ∨
    ((∀ r, q ≠ p ++ r) ∧ (∀ r, p ≠ q ++ r)) := by
  intro p
  induction p with
  | nil => intro q; exact Or.inl ⟨q, rfl⟩
  | cons i p' ih =>
    intro q
    cases q with
    | nil => exact Or.inr (Or.inl ⟨i :: p', rfl, by simp⟩)
    | cons j q' =>
      by_cases hij : i = j
      · subst hij
        rcases ih q' with ⟨r, hr⟩ | ⟨r, hr, hne⟩ | ⟨h1, h2⟩
        · exact Or.inl ⟨r, by rw [hr]; rfl⟩
        · exact Or.inr (Or.inl ⟨r, by rw [hr]; rfl, hne⟩)
        · refine Or.inr (Or.inr ⟨?_, ?_⟩)
          · intro r he
            simp only [List.cons_append, List.cons.injEq] at he
            exact h1 r he.2
          · intro r he
            simp only [List.cons_append, List.cons.injEq] at he
            exact h2 r he.2
      · refine Or.inr (Or.inr ⟨?_, ?_⟩)
        · intro r he
          simp only [List.cons_append, List.cons.injEq] at he
          exact hij he.1.symm
        · intro r he
          simp only [List.cons_append, List.cons.injEq] at he
          exact hij he.1

theorem canonicalAway_weaken {t : Node} (h : CanonicalAway t none)
    (p? : Option (List Nat)) : CanonicalAway t p? :=
  fun q n hq hne _ => h q n hq hne (by simp)

theorem canonical_of_stop {t : Node} {p : List Nat} {n : Node}
    (h : CanonicalAway t (some p)) (hn : getNode t p = some n)
    (hstop : ¬AllFreeChildren n) : Canonical t := by
  intro q m hq hne _
  by_cases hqp : q = p
  · subst hqp
    rw [hq] at hn
    cases hn
    exact hstop
  · exact h q m hq hne (by simpa using hqp)

theorem canonical_of_dangling {t : Node} {p : List Nat}
    (h : CanonicalAway t (some p)) (hn : getNode t p = none) : Canonical t := by
  intro q m hq hne _
  by_cases hqp : q = p
  · subst hqp; rw [hq] at hn; exact absurd hn (by simp)
  · exact h q m hq hne (by simpa using hqp)

theorem isFreeLeaf_false_of_children_ne_nil {n : Node} (h : n.Children ≠ []) :
    n.isFreeLeaf = false := by
  cases n with
  | mk R a cs =>
    simp only [Node.Children] at h
    simp [Node.isFreeLeaf, Node.HasChildren, Node.Children, h]

theorem not_allFree_setNode_cons {u n m : Node} {k : Nat} {r' : List Nat}
    (hur : getNode u (k :: r') = some n)
    (hm : r' = [] → m.isFreeLeaf = false) :
    ¬AllFreeChildren (setNode u (k :: r') m) := by
  cases u with
  | mk Ru au cus =>
    rw [getNode_cons] at hur
    simp only [Node.Children] at hur
    cases hc : cus[k]? with
    | none => rw [hc] at hur; exact absurd hur (by simp)
    | some c =>
      rw [hc] at hur
      simp only [setNode, hc]
      have hxfree : (setNode c r' m).isFreeLeaf = false := by
        cases r' with
        | nil => rw [setNode_nil]; exact hm rfl
        | cons k' r'' =>
          have hcne : c.Children ≠ [] := getNode_children_ne_nil hur
          apply isFreeLeaf_false_of_children_ne_nil
          rcases setNode_children_length (k' :: r'') c m with hlen | habs
          · intro he
            have : (setNode c (k' :: r'') m).Children.length = 0 := by
              rw [he]; rfl
            rw [hlen] at this
            exact hcne (List.length_eq_zero.mp this)
          · exact absurd habs (by simp)
      intro hAF
      have hlt : k < cus.length := (List.getElem?_eq_some_iff.mp hc).1
      have hmem : setNode c r' m ∈ cus.set k (setNode c r' m) :=
        List.getElem?_mem (List.getElem?_set_self (by simpa using hlt))
      have := hAF _ (by simpa [Node.Children] using hmem)
      rw [hxfree] at this
      exact Bool.false_ne_true this

theorem parentPath_of_ne_nil {l : List Nat} (h : l ≠ []) :
    parentPath l = some l.dropLast := by
  cases l with
  | nil => exact absurd rfl h
  | cons a as => rfl

theorem getNode_split_of_append {t : Node} {q r : List Nat} {n : Node}
    (h : getNode t (q ++ r) = some n) :
    ∃ u, getNode t q = some u ∧ getNode u r = some n := by
  have hb := getNode_append q r t
  rw [h] at hb
  cases hu : getNode t q with
  | none => rw [hu] at hb; exact absurd hb.symm (by simp)
  | some u =>
    rw [hu] at hb
    exact ⟨u, rfl, hb.symm⟩

/-- Replacing the node at `p` by a leaf keeps the tree canonical away from
`p`'s parent (the only node whose merge condition the replacement can have
enabled). -/
theorem canonicalAway_set_leaf {t : Node} {p : List Nat} {n : Node}
    (hn : getNode t p = some n) (hca : CanonicalAway t (some p))
    (R0 : Region) (a0 : Bool) :
    CanonicalAway (setNode t p (Node.mk R0 a0 [])) (parentPath p) := by
  intro q m hq hne hqp
  rcases path_trichotomy p q with ⟨r, hr⟩ | ⟨r, hr, hrne⟩ | ⟨h1, h2⟩
  · subst hr
    rw [getNode_setNode_extend hn r _] at hq
    cases r with
    | nil =>
      simp only [getNode, Option.some.injEq] at hq
      subst hq
      simp [Node.Children] at hne
    | cons k r' =>
      rw [getNode_cons] at hq
      simp [Node.Children] at hq
  · obtain ⟨u, hu, hur⟩ := by rw [hr] at hn; exact getNode_split_of_append hn
    rw [hr, setNode_append q r t u _ hu] at hq
    rw [getNode_setNode_self q t u _ hu] at hq
    simp only [Option.some.injEq] at hq
    subst hq
    cases r with
    | nil => exact absurd rfl hrne
    | cons k r' =>
      cases r' with
      | nil =>
        exfalso
        apply hqp
        rw [hr, parentPath_of_ne_nil (by simp)]
        simp
      | cons k' r'' =>
        exact not_allFree_setNode_cons hur (by simp)
  · rw [getNode_setNode_diverge p q t _ h1 h2] at hq
    refine hca q m hq hne ?_
    intro he
    simp only [Option.some.injEq] at he
    exact h2 [] (by rw [he]; simp)

/-- Replacing a node by a subtree that is internally canonical and not a
free leaf preserves full canonicity (used for `Allocate`: the replacement is
an allocated leaf or a split node whose first child is allocated). -/
theorem canonical_setNode_nonfree {t : Node} {p : List Nat} {n m : Node}
    (hn : getNode t p = some n) (hct : Canonical t) (hcm : Canonical m)
    (hm : m.isFreeLeaf = false) : Canonical (setNode t p m) := by
  intro q v hq hne _
  rcases path_trichotomy p q with ⟨r, hr⟩ | ⟨r, hr, hrne⟩ | ⟨h1, h2⟩
  · subst hr
    rw [getNode_setNode_extend hn r m] at hq
    exact hcm r v hq hne (by simp)
  · obtain ⟨u, hu, hur⟩ := by rw [hr] at hn; exact getNode_split_of_append hn
    rw [hr, setNode_append q r t u _ hu] at hq
    rw [getNode_setNode_self q t u _ hu] at hq
    simp only [Option.some.injEq] at hq
    subst hq
    cases r with
    | nil => exact absurd rfl hrne
    | cons k r' =>
      exact not_allFree_setNode_cons hur (fun _ => hm)
  · rw [getNode_setNode_diverge p q t m h1 h2] at hq
    exact hct q v hq hne (by simp)

/-! ### Order facts for the two comparators -/

theorem widthFirstLt_irrefl (a : Region) : widthFirstLt a a = false :=
  lex4_irrefl _

theorem widthFirstLt_trans {a b c : Region} (h1 : widthFirstLt a b = true)
    (h2 : widthFirstLt b c = true) : widthFirstLt a c = true :=
  lex4_trans h1 h2

theorem widthFirstLt_asymm {a b : Region} (h : widthFirstLt a b = true) :
    widthFirstLt b a = false :=
  lex4_asymm h

theorem widthFirstLt_conn {a b : Region} (h1 : widthFirstLt a b = false)
    (h2 : widthFirstLt b a = false) : a = b := by
  have := lex4_eq_of_not_lt h1 h2
  simp only [Prod.mk.injEq] at this
  obtain ⟨e1, e2, e3, e4⟩ := this
  cases a; cases b
  simp_all

theorem heightFirstLt_irrefl (a : Region) : heightFirstLt a a = false :=
  lex4_irrefl _

theorem heightFirstLt_trans {a b c : Region} (h1 : heightFirstLt a b = true)
    (h2 : heightFirstLt b c = true) : heightFirstLt a c = true :=
  lex4_trans h1 h2

theorem heightFirstLt_asymm {a b : Region} (h : heightFirstLt a b = true) :
    heightFirstLt b a = false :=
  lex4_asymm h

theorem heightFirstLt_conn {a b : Region} (h1 : heightFirstLt a b = false)
    (h2 : heightFirstLt b a = false) : a = b := by
  have := lex4_eq_of_not_lt h1 h2
  simp only [Prod.mk.injEq] at this
  obtain ⟨e1, e2, e3, e4⟩ := this
  cases a; cases b
  simp_all

theorem insertSorted_of_mem {lt : Region → Region → Bool}
    (ltIrrefl : ∀ a, lt a a = false)
    (ltAsymm : ∀ {a b : Region}, lt a b = true → lt b a = false)
    (R : Region) : ∀ {l : List Region}, SortedBy lt l → R ∈ l →
    insertSorted lt R l = l := by
  intro l
  induction l with
  | nil => intro _ h; simp at h
  | cons a as ih =>
    intro hs hmem
    rw [SortedBy, List.pairwise_cons] at hs
    obtain ⟨ha, has⟩ := hs
    rcases List.mem_cons.mp hmem with he | hmem'
    · subst he
      simp [insertSorted, ltIrrefl R]
    · have hlt : lt a R = true := ha R hmem'
      have h1 : lt R a = false := ltAsymm hlt
      have h2 : R ≠ a := by
        intro he; subst he
        rw [ltIrrefl R] at hlt
        exact Bool.false_ne_true hlt
      simp only [insertSorted, h1, h2]
      simp [ih has hmem']

namespace DynamicAtlasManager

theorem RegisterNode_false (s : DynamicAtlasManager) (R : Region) :
    s.RegisterNode R false =
      { s with
        m_FreeRegionsByWidth := insertSorted widthFirstLt R s.m_FreeRegionsByWidth
        m_FreeRegionsByHeight := insertSorted heightFirstLt R s.m_FreeRegionsByHeight } := by
  simp [RegisterNode]

theorem RegisterNode_true (s : DynamicAtlasManager) (R : Region) :
    s.RegisterNode R true =
      { s with m_AllocatedRegions := insertSorted widthFirstLt R s.m_AllocatedRegions } := by
  simp [RegisterNode]

theorem UnregisterNode_false (s : DynamicAtlasManager) (R : Region) :
    s.UnregisterNode R false =
      { s with
        m_FreeRegionsByWidth := eraseKey R s.m_FreeRegionsByWidth
        m_FreeRegionsByHeight := eraseKey R s.m_FreeRegionsByHeight } := by
  simp [UnregisterNode]

theorem UnregisterNode_true (s : DynamicAtlasManager) (R : Region) :
    s.UnregisterNode R true =
      { s with m_AllocatedRegions := eraseKey R s.m_AllocatedRegions } := by
  simp [UnregisterNode]

end DynamicAtlasManager

theorem insertW_sorted (R : Region) {l : List Region}
    (h : SortedBy widthFirstLt l) :
    SortedBy widthFirstLt (insertSorted widthFirstLt R l) :=
  @sorted_insertSorted widthFirstLt
    (fun {a b c} h1 h2 => widthFirstLt_trans h1 h2)
    (fun {a b} h1 h2 => widthFirstLt_conn h1 h2) R l h

theorem insertH_sorted (R : Region) {l : List Region}
    (h : SortedBy heightFirstLt l) :
    SortedBy heightFirstLt (insertSorted heightFirstLt R l) :=
  @sorted_insertSorted heightFirstLt
    (fun {a b c} h1 h2 => heightFirstLt_trans h1 h2)
    (fun {a b} h1 h2 => heightFirstLt_conn h1 h2) R l h

theorem sortedW_ext {l l' : List Region} (h : SortedBy widthFirstLt l)
    (h' : SortedBy widthFirstLt l') (hm : ∀ x, x ∈ l ↔ x ∈ l') : l = l' :=
  @sorted_ext widthFirstLt widthFirstLt_irrefl
    (fun {a b} h1 => widthFirstLt_asymm h1) l l' h h' hm

theorem sortedH_ext {l l' : List Region} (h : SortedBy heightFirstLt l)
    (h' : SortedBy heightFirstLt l') (hm : ∀ x, x ∈ l ↔ x ∈ l') : l = l' :=
  @sorted_ext heightFirstLt heightFirstLt_irrefl
    (fun {a b} h1 => heightFirstLt_asymm h1) l l' h h' hm

theorem insertW_of_mem (R : Region) {l : List Region}
    (h : SortedBy widthFirstLt l) (hm : R ∈ l) :
    insertSorted widthFirstLt R l = l :=
  @insertSorted_of_mem widthFirstLt widthFirstLt_irrefl
    (fun {a b} h1 => widthFirstLt_asymm h1) R l h hm

theorem insertH_of_mem (R : Region) {l : List Region}
    (h : SortedBy heightFirstLt l) (hm : R ∈ l) :
    insertSorted heightFirstLt R l = l :=
  @insertSorted_of_mem heightFirstLt heightFirstLt_irrefl
    (fun {a b} h1 => heightFirstLt_asymm h1) R l h hm

/-! ### Effect of the registration helpers on the state -/

namespace DynamicAtlasManager

theorem registerAll_m_Root : ∀ (l : List (Region × Bool)) (s : DynamicAtlasManager),
    (registerAll s l).m_Root = s.m_Root := by
  intro l
  induction l with
  | nil => intro s; rfl
  | cons x rest ih =>
    intro s
    obtain ⟨R, a⟩ := x
    rw [registerAll, ih]
    cases a
    · rw [RegisterNode_false]
    · rw [RegisterNode_true]

theorem registerAll_m_Width : ∀ (l : List (Region × Bool)) (s : DynamicAtlasManager),
    (registerAll s l).m_Width = s.m_Width := by
  intro l
  induction l with
  | nil => intro s; rfl
  | cons x rest ih =>
    intro s
    obtain ⟨R, a⟩ := x
    rw [registerAll, ih]
    cases a
    · rw [RegisterNode_false]
    · rw [RegisterNode_true]

theorem registerAll_m_Height : ∀ (l : List (Region × Bool)) (s : DynamicAtlasManager),
    (registerAll s l).m_Height = s.m_Height := by
  intro l
  induction l with
  | nil => intro s; rfl
  | cons x rest ih =>
    intro s
    obtain ⟨R, a⟩ := x
    rw [registerAll, ih]
    cases a
    · rw [RegisterNode_false]
    · rw [RegisterNode_true]

theorem registerAll_freeW_mem : ∀ (l : List (Region × Bool))
    (s : DynamicAtlasManager) (x : Region),
    x ∈ (registerAll s l).m_FreeRegionsByWidth ↔
      x ∈ s.m_FreeRegionsByWidth ∨ (x, false) ∈ l := by
  intro l
  induction l with
  | nil => intro s x; simp [registerAll]
  | cons y rest ih =>
    intro s x
    obtain ⟨R, a⟩ := y
    rw [registerAll, ih]
    cases a with
    | false =>
      rw [RegisterNode_false]
      simp only [mem_insertSorted, List.mem_cons, Prod.mk.injEq]
      tauto
    | true =>
      rw [RegisterNode_true]
      simp only [List.mem_cons, Prod.mk.injEq]
      tauto

theorem registerAll_freeH_mem : ∀ (l : List (Region × Bool))
    (s : DynamicAtlasManager) (x : Region),
    x ∈ (registerAll s l).m_FreeRegionsByHeight ↔
      x ∈ s.m_FreeRegionsByHeight ∨ (x, false) ∈ l := by
  intro l
  induction l with
  | nil => intro s x; simp [registerAll]
  | cons y rest ih =>
    intro s x
    obtain ⟨R, a⟩ := y
    rw [registerAll, ih]
    cases a with
    | false =>
      rw [RegisterNode_false]
      simp only [mem_insertSorted, List.mem_cons, Prod.mk.injEq]
      tauto
    | true =>
      rw [RegisterNode_true]
      simp only [List.mem_cons, Prod.mk.injEq]
      tauto

theorem registerAll_alloc_mem : ∀ (l : List (Region × Bool))
    (s : DynamicAtlasManager) (x : Region),
    x ∈ (registerAll s l).m_AllocatedRegions ↔
      x ∈ s.m_AllocatedRegions ∨ (x, true) ∈ l := by
  intro l
  induction l with
  | nil => intro s x; simp [registerAll]
  | cons y rest ih =>
    intro s x
    obtain ⟨R, a⟩ := y
    rw [registerAll, ih]
    cases a with
    | false =>
      rw [RegisterNode_false]
      simp only [List.mem_cons, Prod.mk.injEq]
      tauto
    | true =>
      rw [RegisterNode_true]
      simp only [mem_insertSorted, List.mem_cons, Prod.mk.injEq]
      tauto

theorem registerAll_sortW : ∀ (l : List (Region × Bool))
    (s : DynamicAtlasManager),
    SortedBy widthFirstLt s.m_FreeRegionsByWidth →
    SortedBy widthFirstLt (registerAll s l).m_FreeRegionsByWidth := by
  intro l
  induction l with
  | nil => intro s h; exact h
  | cons y rest ih =>
    intro s h
    obtain ⟨R, a⟩ := y
    rw [registerAll]
    apply ih
    cases a with
    | false =>
      rw [RegisterNode_false]
      exact insertW_sorted R h
    | true => rw [RegisterNode_true]; exact h

theorem registerAll_sortH : ∀ (l : List (Region × Bool))
    (s : DynamicAtlasManager),
    SortedBy heightFirstLt s.m_FreeRegionsByHeight →
    SortedBy heightFirstLt (registerAll s l).m_FreeRegionsByHeight := by
  intro l
  induction l with
  | nil => intro s h; exact h
  | cons y rest ih =>
    intro s h
    obtain ⟨R, a⟩ := y
    rw [registerAll]
    apply ih
    cases a with
    | false =>
      rw [RegisterNode_false]
      exact insertH_sorted R h
    | true => rw [RegisterNode_true]; exact h

theorem registerAll_sortA : ∀ (l : List (Region × Bool))
    (s : DynamicAtlasManager),
    SortedBy widthFirstLt s.m_AllocatedRegions →
    SortedBy widthFirstLt (registerAll s l).m_AllocatedRegions := by
  intro l
  induction l with
  | nil => intro s h; exact h
  | cons y rest ih =>
    intro s h
    obtain ⟨R, a⟩ := y
    rw [registerAll]
    apply ih
    cases a with
    | false => rw [RegisterNode_false]; exact h
    | true =>
      rw [RegisterNode_true]
      exact insertW_sorted R h

end DynamicAtlasManager

namespace DynamicAtlasManager

theorem unregisterAll_m_Root : ∀ (l : List Node) (s : DynamicAtlasManager),
    (unregisterAll s l).m_Root = s.m_Root := by
  intro l
  induction l with
  | nil => intro s; rfl
  | cons c rest ih =>
    intro s
    rw [unregisterAll, ih]
    cases c.IsAllocated
    · rw [UnregisterNode_false]
    · rw [UnregisterNode_true]

theorem unregisterAll_m_Width : ∀ (l : List Node) (s : DynamicAtlasManager),
    (unregisterAll s l).m_Width = s.m_Width := by
  intro l
  induction l with
  | nil => intro s; rfl
  | cons c rest ih =>
    intro s
    rw [unregisterAll, ih]
    cases c.IsAllocated
    · rw [UnregisterNode_false]
    · rw [UnregisterNode_true]

theorem unregisterAll_m_Height : ∀ (l : List Node) (s : DynamicAtlasManager),
    (unregisterAll s l).m_Height = s.m_Height := by
  intro l
  induction l with
  | nil => intro s; rfl
  | cons c rest ih =>
    intro s
    rw [unregisterAll, ih]
    cases c.IsAllocated
    · rw [UnregisterNode_false]
    · rw [UnregisterNode_true]

theorem unregisterAll_freeW_mem : ∀ (l : List Node) (s : DynamicAtlasManager),
    (∀ c ∈ l, c.IsAllocated = false) → ∀ x,
    (x ∈ (unregisterAll s l).m_FreeRegionsByWidth ↔
      x ∈ s.m_FreeRegionsByWidth ∧ ∀ c ∈ l, x ≠ c.R) := by
  intro l
  induction l with
  | nil => intro s _ x; simp [unregisterAll]
  | cons c rest ih =>
    intro s hfree x
    rw [unregisterAll, hfree c (by simp), UnregisterNode_false,
      ih _ (fun d hd => hfree d (by simp [hd]))]
    simp only [mem_eraseKey, List.mem_cons]
    constructor
    · rintro ⟨⟨h1, h2⟩, h3⟩
      refine ⟨h1, ?_⟩
      intro d hd
      rcases hd with hd | hd
      · subst hd; exact h2
      · exact h3 d hd
    · rintro ⟨h1, h2⟩
      exact ⟨⟨h1, h2 c (Or.inl rfl)⟩, fun d hd => h2 d (Or.inr hd)⟩

theorem unregisterAll_freeH_mem : ∀ (l : List Node) (s : DynamicAtlasManager),
    (∀ c ∈ l, c.IsAllocated = false) → ∀ x,
    (x ∈ (unregisterAll s l).m_FreeRegionsByHeight ↔
      x ∈ s.m_FreeRegionsByHeight ∧ ∀ c ∈ l, x ≠ c.R) := by
  intro l
  induction l with
  | nil => intro s _ x; simp [unregisterAll]
  | cons c rest ih =>
    intro s hfree x
    rw [unregisterAll, hfree c (by simp), UnregisterNode_false,
      ih _ (fun d hd => hfree d (by simp [hd]))]
    simp only [mem_eraseKey, List.mem_cons]
    constructor
    · rintro ⟨⟨h1, h2⟩, h3⟩
      refine ⟨h1, ?_⟩
      intro d hd
      rcases hd with hd | hd
      · subst hd; exact h2
      · exact h3 d hd
    · rintro ⟨h1, h2⟩
      exact ⟨⟨h1, h2 c (Or.inl rfl)⟩, fun d hd => h2 d (Or.inr hd)⟩

theorem unregisterAll_alloc : ∀ (l : List Node) (s : DynamicAtlasManager),
    (∀ c ∈ l, c.IsAllocated = false) →
    (unregisterAll s l).m_AllocatedRegions = s.m_AllocatedRegions := by
  intro l
  induction l with
  | nil => intro s _; rfl
  | cons c rest ih =>
    intro s hfree
    rw [unregisterAll, hfree c (by simp), UnregisterNode_false,
      ih _ (fun d hd => hfree d (by simp [hd]))]

theorem unregisterAll_sortW : ∀ (l : List Node) (s : DynamicAtlasManager),
    SortedBy widthFirstLt s.m_FreeRegionsByWidth →
    SortedBy widthFirstLt (unregisterAll s l).m_FreeRegionsByWidth := by
  intro l
  induction l with
  | nil => intro s h; exact h
  | cons c rest ih =>
    intro s h
    rw [unregisterAll]
    apply ih
    cases c.IsAllocated
    · rw [UnregisterNode_false]; exact sorted_eraseKey _ h
    · rw [UnregisterNode_true]; exact h

theorem unregisterAll_sortH : ∀ (l : List Node) (s : DynamicAtlasManager),
    SortedBy heightFirstLt s.m_FreeRegionsByHeight →
    SortedBy heightFirstLt (unregisterAll s l).m_FreeRegionsByHeight := by
  intro l
  induction l with
  | nil => intro s h; exact h
  | cons c rest ih =>
    intro s h
    rw [unregisterAll]
    apply ih
    cases c.IsAllocated
    · rw [UnregisterNode_false]; exact sorted_eraseKey _ h
    · rw [UnregisterNode_true]; exact h

theorem unregisterAll_sortA : ∀ (l : List Node) (s : DynamicAtlasManager),
    SortedBy widthFirstLt s.m_AllocatedRegions →
    SortedBy widthFirstLt (unregisterAll s l).m_AllocatedRegions := by
  intro l
  induction l with
  | nil => intro s h; exact h
  | cons c rest ih =>
    intro s h
    rw [unregisterAll]
    apply ih
    cases c.IsAllocated
    · rw [UnregisterNode_false]; exact h
    · rw [UnregisterNode_true]; exact sorted_eraseKey _ h

end DynamicAtlasManager

/-! ### Candidate search -/

theorem widthFirstLt_width_le {a b : Region}
    (h : widthFirstLt a b = true) : a.width ≤ b.width := by
  simp only [widthFirstLt, lex4] at h
  split_ifs at h <;> simp_all <;> omega

theorem heightFirstLt_height_le {a b : Region}
    (h : heightFirstLt a b = true) : a.height ≤ b.height := by
  simp only [heightFirstLt, lex4] at h
  split_ifs at h <;> simp_all <;> omega

theorem dropWhile_width_ge {l : List Region} (hs : SortedBy widthFirstLt l)
    (W : Nat) : ∀ r ∈ l.dropWhile (fun r => decide (r.width < W)),
    W ≤ r.width := by
  have hsub := List.dropWhile_sublist (l := l)
    (p := fun r => decide (r.width < W))
  have hs' : SortedBy widthFirstLt
      (l.dropWhile fun r => decide (r.width < W)) :=
    List.Pairwise.sublist hsub hs
  cases hd : l.dropWhile (fun r => decide (r.width < W)) with
  | nil => intro r hr; simp [hd] at hr
  | cons a rest =>
    have hhead := List.head?_dropWhile_not
      (fun r => decide (r.width < W)) l
    rw [hd] at hhead
    simp only [List.head?_cons] at hhead
    have ha : W ≤ a.width := by simpa using hhead
    rw [hd] at hs'
    rw [SortedBy, List.pairwise_cons] at hs'
    intro r hr
    rcases List.mem_cons.mp hr with he | hr'
    · subst he; exact ha
    · exact le_trans ha (widthFirstLt_width_le (hs'.1 r hr'))

theorem dropWhile_height_ge {l : List Region} (hs : SortedBy heightFirstLt l)
    (H : Nat) : ∀ r ∈ l.dropWhile (fun r => decide (r.height < H)),
    H ≤ r.height := by
  have hsub := List.dropWhile_sublist (l := l)
    (p := fun r => decide (r.height < H))
  have hs' : SortedBy heightFirstLt
      (l.dropWhile fun r => decide (r.height < H)) :=
    List.Pairwise.sublist hsub hs
  cases hd : l.dropWhile (fun r => decide (r.height < H)) with
  | nil => intro r hr; simp [hd] at hr
  | cons a rest =>
    have hhead := List.head?_dropWhile_not
      (fun r => decide (r.height < H)) l
    rw [hd] at hhead
    simp only [List.head?_cons] at hhead
    have ha : H ≤ a.height := by simpa using hhead
    rw [hd] at hs'
    rw [SortedBy, List.pairwise_cons] at hs'
    intro r hr
    rcases List.mem_cons.mp hr with he | hr'
    · subst he; exact ha
    · exact le_trans ha (heightFirstLt_height_le (hs'.1 r hr'))

open DynamicAtlasManager in
theorem candW_some {l : List Region} {W H : Nat} {r : Region}
    (hs : SortedBy widthFirstLt l)
    (h : candidateByWidth l W H = some r) :
    r ∈ l ∧ W ≤ r.width ∧ H ≤ r.height := by
  unfold candidateByWidth at h
  refine ⟨List.Sublist.mem (List.mem_of_find?_eq_some h)
    (List.dropWhile_sublist _), ?_, ?_⟩
  · exact dropWhile_width_ge hs W r (List.mem_of_find?_eq_some h)
  · have := List.find?_some h
    simpa using this

open DynamicAtlasManager in
theorem candH_some {l : List Region} {W H : Nat} {r : Region}
    (hs : SortedBy heightFirstLt l)
    (h : candidateByHeight l W H = some r) :
    r ∈ l ∧ W ≤ r.width ∧ H ≤ r.height := by
  unfold candidateByHeight at h
  refine ⟨List.Sublist.mem (List.mem_of_find?_eq_some h)
    (List.dropWhile_sublist _), ?_, ?_⟩
  · have := List.find?_some h
    simpa using this
  · exact dropWhile_height_ge hs H r (List.mem_of_find?_eq_some h)

open DynamicAtlasManager in
theorem candW_none {l : List Region} {W H : Nat}
    (h : candidateByWidth l W H = none) :
    ∀ r ∈ l, ¬(W ≤ r.width ∧ H ≤ r.height) := by
  unfold candidateByWidth at h
  intro r hr
  rw [← List.takeWhile_append_dropWhile
    (p := fun r => decide (r.width < W)) (l := l)] at hr
  rcases List.mem_append.mp hr with hr | hr
  · have := List.mem_takeWhile_imp hr
    simp only [decide_eq_true_eq] at this
    omega
  · rw [List.find?_eq_none] at h
    have := h r hr
    simp only [Bool.not_eq_true', decide_eq_false_iff_not, Decidable.not_not] at this
    omega

open DynamicAtlasManager in
theorem candH_none {l : List Region} {W H : Nat}
    (h : candidateByHeight l W H = none) :
    ∀ r ∈ l, ¬(W ≤ r.width ∧ H ≤ r.height) := by
  unfold candidateByHeight at h
  intro r hr
  rw [← List.takeWhile_append_dropWhile
    (p := fun r => decide (r.height < H)) (l := l)] at hr
  rcases List.mem_append.mp hr with hr | hr
  · have := List.mem_takeWhile_imp hr
    simp only [decide_eq_true_eq] at this
    omega
  · rw [List.find?_eq_none] at h
    have := h r hr
    simp only [Bool.not_eq_true', decide_eq_false_iff_not, Decidable.not_not] at this
    omega

open DynamicAtlasManager in
theorem chooseSource_cases {s : DynamicAtlasManager} {W H : Nat} {R : Region}
    (h : chooseSource s W H = some R) :
    candidateByWidth s.m_FreeRegionsByWidth W H = some R ∨
    candidateByHeight s.m_FreeRegionsByHeight W H = some R := by
  unfold chooseSource at h
  dsimp only at h
  split_ifs at h <;> first
    | exact Or.inl h
    | exact Or.inr h
    | exact absurd h (by simp)

open DynamicAtlasManager in
theorem chooseSource_none_iff {s : DynamicAtlasManager} {W H : Nat} :
    chooseSource s W H = none ↔
    candArea (candidateByWidth s.m_FreeRegionsByWidth W H) = 0 ∧
    candArea (candidateByHeight s.m_FreeRegionsByHeight W H) = 0 := by
  unfold chooseSource
  dsimp only
  constructor
  · intro h
    split_ifs at h with h1 h2 h3 h4
    · rw [h] at h1; simp [candArea] at h1
    · obtain ⟨_, hb⟩ := h1
      rw [h] at hb; simp [candArea] at hb
    · rw [h] at h3; simp [candArea] at h3
    · rw [h] at h4; simp [candArea] at h4
    · exact ⟨by omega, by omega⟩
  · intro ⟨h1, h2⟩
    rw [h1, h2]
    simp

/-! ### The state invariant -/

/-- The invariant tying the four sub-structures together: the tree is a
valid disjoint partition in canonical (maximally merged) form, the root
covers the atlas, the three key lists are strictly sorted, and they hold
exactly the free (resp. allocated) leaf regions of the tree. -/
structure ManagerInv (s : DynamicAtlasManager) : Prop where
  valid : Valid s.m_Root
  canon : Canonical s.m_Root
  rootR : s.m_Root.R = ⟨0, 0, s.m_Width, s.m_Height⟩
  sortW : SortedBy widthFirstLt s.m_FreeRegionsByWidth
  sortH : SortedBy heightFirstLt s.m_FreeRegionsByHeight
  sortA : SortedBy widthFirstLt s.m_AllocatedRegions
  memW : ∀ r, r ∈ s.m_FreeRegionsByWidth ↔ (r, false) ∈ s.m_Root.leafPairs
  memH : ∀ r, r ∈ s.m_FreeRegionsByHeight ↔ (r, false) ∈ s.m_Root.leafPairs
  memA : ∀ r, r ∈ s.m_AllocatedRegions ↔ (r, true) ∈ s.m_Root.leafPairs

theorem canonical_leaf (R : Region) (a : Bool) :
    Canonical (Node.mk R a []) := by
  intro q n hq hne _
  cases q with
  | nil =>
    simp only [getNode, Option.some.injEq] at hq
    subst hq
    simp [Node.Children] at hne
  | cons i q' =>
    rw [getNode_cons] at hq
    simp [Node.Children] at hq

theorem new_Inv (W H : Nat) (hW : 0 < W) (hH : 0 < H) :
    ManagerInv (DynamicAtlasManager.new W H) := by
  rw [DynamicAtlasManager.new, DynamicAtlasManager.RegisterNode_false]
  refine ⟨?_, ?_, ?_, ?_, ?_, ?_, ?_, ?_, ?_⟩
  · exact Valid.leaf _ _ hW hH
  · exact canonical_leaf _ _
  · rfl
  · simp [insertSorted, SortedBy]
  · simp [insertSorted, SortedBy]
  · simp [SortedBy]
  · intro r; simp [insertSorted, Node.leafPairs]
  · intro r; simp [insertSorted, Node.leafPairs]
  · intro r; simp [Node.leafPairs]

/-! ### Split geometry -/

open DynamicAtlasManager in
theorem splitRegions_spec {R : Region} {W H : Nat} {c0 : Region}
    {rest : List Region}
    (hW : 0 < W) (hH : 0 < H) (hWle : W ≤ R.width) (hHle : H ≤ R.height)
    (hsplit : splitRegions R W H = c0 :: rest) :
    c0 = ⟨R.x, R.y, W, H⟩ ∧
    2 ≤ (c0 :: rest).length ∧
    (∀ r ∈ c0 :: rest, containsR R r ∧ 0 < r.width ∧ 0 < r.height) ∧
    List.Pairwise disjointR (c0 :: rest) := by
  unfold splitRegions at hsplit
  split_ifs at hsplit with h1 h2 h3 h4
  · obtain ⟨h1a, h1b⟩ := h1
    simp only [List.cons.injEq] at hsplit
    obtain ⟨hc0, hrest⟩ := hsplit
    subst hc0; subst hrest
    refine ⟨rfl, by simp, ?_, ?_⟩
    · intro r hr
      simp only [List.mem_cons, List.not_mem_nil, or_false] at hr
      rcases hr with rfl | rfl | rfl <;> (simp only [containsR]; omega)
    · refine List.pairwise_cons.mpr ⟨?_, List.pairwise_cons.mpr ⟨?_, ?_⟩⟩
      · intro r hr
        simp only [List.mem_cons, List.not_mem_nil, or_false] at hr
        rcases hr with rfl | rfl <;> (simp only [disjointR]; omega)
      · intro r hr
        simp only [List.mem_singleton] at hr
        subst hr
        simp only [disjointR]
        omega
      · simp
  · obtain ⟨h1a, h1b⟩ := h1
    simp only [List.cons.injEq] at hsplit
    obtain ⟨hc0, hrest⟩ := hsplit
    subst hc0; subst hrest
    refine ⟨rfl, by simp, ?_, ?_⟩
    · intro r hr
      simp only [List.mem_cons, List.not_mem_nil, or_false] at hr
      rcases hr with rfl | rfl | rfl <;> (simp only [containsR]; omega)
    · refine List.pairwise_cons.mpr ⟨?_, List.pairwise_cons.mpr ⟨?_, ?_⟩⟩
      · intro r hr
        simp only [List.mem_cons, List.not_mem_nil, or_false] at hr
        rcases hr with rfl | rfl <;> (simp only [disjointR]; omega)
      · intro r hr
        simp only [List.mem_singleton] at hr
        subst hr
        simp only [disjointR]
        omega
      · simp
  · simp only [List.cons.injEq] at hsplit
    obtain ⟨hc0, hrest⟩ := hsplit
    subst hc0; subst hrest
    refine ⟨rfl, by simp, ?_, ?_⟩
    · intro r hr
      simp only [List.mem_cons, List.not_mem_nil, or_false] at hr
      rcases hr with rfl | rfl <;> (simp only [containsR]; omega)
    · refine List.pairwise_cons.mpr ⟨?_, ?_⟩
      · intro r hr
        simp only [List.mem_singleton] at hr
        subst hr
        simp only [disjointR]
        omega
      · simp
  · simp only [List.cons.injEq] at hsplit
    obtain ⟨hc0, hrest⟩ := hsplit
    subst hc0; subst hrest
    refine ⟨rfl, by simp, ?_, ?_⟩
    · intro r hr
      simp only [List.mem_cons, List.not_mem_nil, or_false] at hr
      rcases hr with rfl | rfl <;> (simp only [containsR]; omega)
    · refine List.pairwise_cons.mpr ⟨?_, ?_⟩
      · intro r hr
        simp only [List.mem_singleton] at hr
        subst hr
        simp only [disjointR]
        omega
      · simp

open DynamicAtlasManager in
theorem splitRegions_nil_iff {R : Region} {W H : Nat} :
    splitRegions R W H = [] ↔ ¬W < R.width ∧ ¬H < R.height := by
  unfold splitRegions
  split_ifs with h1 h2 h3 h4 <;> simp <;> omega

/-! ### Properties of `makeChildren` -/

open DynamicAtlasManager in
theorem makeChildren_pairs (c0 : Region) (rest : List Region) :
    leafPairsList (makeChildren (c0 :: rest)) =
      (c0, true) :: rest.map fun r => (r, false) := by
  rw [makeChildren]
  simp only [leafPairsList, Node.leafPairs]
  induction rest with
  | nil => rfl
  | cons r rs ih =>
    simp only [List.map_cons, leafPairsList, Node.leafPairs] at ih ⊢
    simp only [List.cons_append, List.nil_append] at ih ⊢
    rw [List.cons.injEq] at ih
    simp [ih.2]

open DynamicAtlasManager in
theorem makeChildren_map_R (c0 : Region) (rest : List Region) :
    (makeChildren (c0 :: rest)).map Node.R = c0 :: rest := by
  rw [makeChildren]
  simp only [List.map_cons, List.map_map, Node.R]
  congr 1
  rw [show (Node.R ∘ fun r => Node.mk r false []) = id from rfl]
  simp

open DynamicAtlasManager in
theorem makeChildren_length (c0 : Region) (rest : List Region) :
    (makeChildren (c0 :: rest)).length = rest.length + 1 := by
  rw [makeChildren]
  simp

open DynamicAtlasManager in
theorem makeChildren_mem {c0 : Region} {rest : List Region} {c : Node}
    (hc : c ∈ makeChildren (c0 :: rest)) :
    c = Node.mk c0 true [] ∨ ∃ r ∈ rest, c = Node.mk r false [] := by
  rw [makeChildren] at hc
  rcases List.mem_cons.mp hc with he | hc'
  · exact Or.inl he
  · obtain ⟨r, hr, he⟩ := List.mem_map.mp hc'
    exact Or.inr ⟨r, hr, he.symm⟩

open DynamicAtlasManager in
theorem valid_split_node (R : Region) {W H : Nat} {c0 : Region}
    {rest : List Region}
    (hW : 0 < W) (hH : 0 < H) (hWle : W ≤ R.width) (hHle : H ≤ R.height)
    (hRw : 0 < R.width) (hRh : 0 < R.height)
    (hsplit : splitRegions R W H = c0 :: rest) :
    Valid (Node.mk R false (makeChildren (c0 :: rest))) := by
  obtain ⟨hc0, hlen, hfacts, hpw⟩ := splitRegions_spec hW hH hWle hHle hsplit
  refine Valid.node R _ hRw hRh ?_ ?_ ?_ ?_
  · rw [makeChildren_length]
    simp only [List.length_cons] at hlen
    omega
  · intro c hc
    rcases makeChildren_mem hc with he | ⟨r, hr, he⟩
    · subst he
      exact (hfacts c0 (by simp)).1
    · subst he
      exact (hfacts r (by simp [hr])).1
  · intro c hc
    rcases makeChildren_mem hc with he | ⟨r, hr, he⟩
    · subst he
      exact Valid.leaf _ _ (hfacts c0 (by simp)).2.1 (hfacts c0 (by simp)).2.2
    · subst he
      exact Valid.leaf _ _ (hfacts r (by simp [hr])).2.1 (hfacts r (by simp [hr])).2.2
  · rw [← List.pairwise_map (f := Node.R), makeChildren_map_R]
    exact hpw

open DynamicAtlasManager in
theorem canonical_split_node (R : Region) (c0 : Region) (rest : List Region) :
    Canonical (Node.mk R false (makeChildren (c0 :: rest))) := by
  intro q n hq hne _
  cases q with
  | nil =>
    simp only [getNode, Option.some.injEq] at hq
    subst hq
    intro hAF
    have := hAF (Node.mk c0 true []) (by rw [Node.Children, makeChildren]; simp)
    simp [Node.isFreeLeaf, Node.IsAllocated] at this
  | cons i q' =>
    rw [getNode_cons] at hq
    simp only [Node.Children] at hq
    cases hc : (makeChildren (c0 :: rest))[i]? with
    | none => rw [hc] at hq; exact absurd hq (by simp)
    | some c =>
      rw [hc] at hq
      have hcm := List.getElem?_mem hc
      have hcleaf : c.Children = [] := by
        rcases makeChildren_mem hcm with he | ⟨r, _, he⟩ <;>
          (subst he; rfl)
      cases q' with
      | nil =>
        have hq' : getNode c [] = some n := hq
        simp only [getNode, Option.some.injEq] at hq'
        subst hq'
        exact absurd hcleaf hne
      | cons j q'' =>
        have hq' : getNode c (j :: q'') = some n := hq
        rw [getNode_cons, hcleaf] at hq'
        simp at hq' 

open DynamicAtlasManager in
theorem isFreeLeaf_split_node (R : Region) (c0 : Region) (rest : List Region) :
    (Node.mk R false (makeChildren (c0 :: rest))).isFreeLeaf = false := by
  apply isFreeLeaf_false_of_children_ne_nil
  rw [Node.Children, makeChildren]
  simp

/-! ### Membership bookkeeping around a replaced leaf -/

theorem pairs_mem_erase {A B : List (Region × Bool)} {R : Region} {b : Bool}
    (hne : List.Pairwise (fun x y : Region × Bool => x.1 ≠ y.1)
      (A ++ (R, b) :: B)) (r : Region) (c : Bool) :
    ((r, c) ∈ A ++ (R, b) :: B ∧ r ≠ R) ↔ (r, c) ∈ A ++ B := by
  rw [List.pairwise_append] at hne
  obtain ⟨hA, hRB, hcross⟩ := hne
  rw [List.pairwise_cons] at hRB
  constructor
  · rintro ⟨hm, hr⟩
    rcases List.mem_append.mp hm with h | h
    · exact List.mem_append.mpr (Or.inl h)
    · rcases List.mem_cons.mp h with he | h
      · exact absurd (congrArg Prod.fst he) hr
      · exact List.mem_append.mpr (Or.inr h)
  · intro hm
    rcases List.mem_append.mp hm with h | h
    · exact ⟨List.mem_append.mpr (Or.inl h),
        hcross (r, c) h (R, b) (by simp)⟩
    · exact ⟨List.mem_append.mpr (Or.inr (List.mem_cons.mpr (Or.inr h))),
        fun he => (hRB.1 (r, c) h) (by rw [he])⟩

theorem mem_append_cons_flag {A B : List (Region × Bool)} {R r : Region}
    {b c : Bool} (hbc : c ≠ b) :
    (r, c) ∈ A ++ (R, b) :: B ↔ (r, c) ∈ A ++ B := by
  simp only [List.mem_append, List.mem_cons, Prod.mk.injEq]
  constructor
  · rintro (h | ⟨_, he⟩ | h)
    · exact Or.inl h
    · exact absurd he hbc
    · exact Or.inr h
  · rintro (h | h)
    · exact Or.inl h
    · exact Or.inr (Or.inr h)

open DynamicAtlasManager in
theorem chooseSource_fits {s : DynamicAtlasManager} (hInv : ManagerInv s)
    {W H : Nat} {R : Region} (h : chooseSource s W H = some R) :
    (R, false) ∈ s.m_Root.leafPairs ∧ W ≤ R.width ∧ H ≤ R.height := by
  rcases chooseSource_cases h with h | h
  · have hc := candW_some hInv.sortW h
    exact ⟨(hInv.memW R).mp hc.1, hc.2⟩
  · have hc := candH_some hInv.sortH h
    exact ⟨(hInv.memH R).mp hc.1, hc.2⟩

namespace DynamicAtlasManager

theorem Allocate_eq_none {s : DynamicAtlasManager} {W H : Nat}
    (hcs : chooseSource s W H = none) :
    s.Allocate W H = (Region.default, s) := by
  unfold Allocate
  rw [hcs]

theorem Allocate_eq_exact {s : DynamicAtlasManager} {W H : Nat} {R : Region}
    {p : List Nat} (hcs : chooseSource s W H = some R)
    (hfp : s.m_Root.findLeafPath R false = some p)
    (hsr : splitRegions R W H = []) :
    s.Allocate W H =
      (R, RegisterNode
        { s.UnregisterNode R false with
          m_Root := setNode (s.UnregisterNode R false).m_Root p
            (Node.mk R true []) } R true) := by
  unfold Allocate
  rw [hcs]
  dsimp only
  rw [hfp]
  dsimp only
  rw [hsr]

theorem Allocate_eq_split {s : DynamicAtlasManager} {W H : Nat} {R : Region}
    {p : List Nat} {c0 : Region} {rest : List Region}
    (hcs : chooseSource s W H = some R)
    (hfp : s.m_Root.findLeafPath R false = some p)
    (hsr : splitRegions R W H = c0 :: rest) :
    s.Allocate W H =
      (c0, registerAll
        { s.UnregisterNode R false with
          m_Root := setNode (s.UnregisterNode R false).m_Root p
            (Node.mk R false (makeChildren (c0 :: rest))) }
        ((c0, true) :: rest.map fun r => (r, false))) := by
  unfold Allocate
  rw [hcs]
  dsimp only
  rw [hfp]
  dsimp only
  rw [hsr]

end DynamicAtlasManager

open DynamicAtlasManager in
/-- `Allocate` preserves the invariant (and never touches the atlas size). -/
theorem Allocate_Inv {s : DynamicAtlasManager} (hInv : ManagerInv s)
    (W H : Nat) (hW : 0 < W) (hH : 0 < H) :
    ManagerInv (s.Allocate W H).2 ∧
    (s.Allocate W H).2.m_Width = s.m_Width ∧
    (s.Allocate W H).2.m_Height = s.m_Height := by
  cases hcs : chooseSource s W H with
  | none => rw [Allocate_eq_none hcs]; exact ⟨hInv, rfl, rfl⟩
  | some R =>
    obtain ⟨hRmem, hWle, hHle⟩ := chooseSource_fits hInv hcs
    obtain ⟨hcont, hRw, hRh⟩ := valid_pairs_facts _ hInv.valid _ hRmem
    cases hfp : s.m_Root.findLeafPath R false with
    | none =>
      obtain ⟨p, hp⟩ := findLeafPath_complete _ _ _ hRmem
      rw [hp] at hfp
      exact absurd hfp (by simp)
    | some p =>
      have hgp := findLeafPath_sound _ _ _ _ hfp
      obtain ⟨A, B, hdec, hsetp⟩ := leafPairs_decomp p _ _ hgp
      have hdec' : s.m_Root.leafPairs = A ++ (R, false) :: B := by
        simpa [Node.leafPairs] using hdec
      have hne := valid_pairs_ne _ hInv.valid
      rw [hdec'] at hne
      cases hsr : splitRegions R W H with
      | nil =>
        rw [Allocate_eq_exact hcs hfp hsr]
        rw [UnregisterNode_false, RegisterNode_true]
        have hroot : (setNode s.m_Root p (Node.mk R true [])).R = s.m_Root.R :=
          setNode_R hgp rfl
        have hpairs : (setNode s.m_Root p (Node.mk R true [])).leafPairs =
            A ++ (R, true) :: B := by
          simpa [Node.leafPairs] using hsetp (Node.mk R true [])
        refine ⟨⟨?_, ?_, ?_, ?_, ?_, ?_, ?_, ?_, ?_⟩, rfl, rfl⟩
        · exact valid_setNode p _ _ _ hInv.valid hgp
            (Valid.leaf _ _ hRw hRh) rfl
        · exact canonical_setNode_nonfree hgp hInv.canon
            (canonical_leaf _ _) rfl
        · rw [hroot]; exact hInv.rootR
        · exact sorted_eraseKey _ hInv.sortW
        · exact sorted_eraseKey _ hInv.sortH
        · exact insertW_sorted R hInv.sortA
        · intro r
          rw [mem_eraseKey, hInv.memW r, hdec', hpairs]
          rw [pairs_mem_erase hne r false,
            mem_append_cons_flag (by simp)]
        · intro r
          rw [mem_eraseKey, hInv.memH r, hdec', hpairs]
          rw [pairs_mem_erase hne r false,
            mem_append_cons_flag (by simp)]
        · intro r
          rw [mem_insertSorted, hInv.memA r, hdec', hpairs]
          simp only [List.mem_append, List.mem_cons, Prod.mk.injEq]
          tauto
      | cons c0 rest =>
        rw [Allocate_eq_split hcs hfp hsr]
        rw [UnregisterNode_false]
        obtain ⟨hc0, hlen2, hfacts, hpw⟩ :=
          splitRegions_spec hW hH hWle hHle hsr
        have hroot : (setNode s.m_Root p
            (Node.mk R false (makeChildren (c0 :: rest)))).R = s.m_Root.R :=
          setNode_R hgp rfl
        have hmne : makeChildren (c0 :: rest) ≠ [] := by
          rw [makeChildren]; simp
        have hmp : (Node.mk R false (makeChildren (c0 :: rest))).leafPairs =
            (c0, true) :: rest.map (fun r => (r, false)) := by
          rw [leafPairs_of_ne_nil _ _ hmne, makeChildren_pairs]
        have hpairs : (setNode s.m_Root p
            (Node.mk R false (makeChildren (c0 :: rest)))).leafPairs =
            A ++ ((c0, true) :: rest.map (fun r => (r, false))) ++ B := by
          rw [hsetp _, hmp]
        refine ⟨⟨?_, ?_, ?_, ?_, ?_, ?_, ?_, ?_, ?_⟩, ?_, ?_⟩
        · rw [registerAll_m_Root]
          exact valid_setNode p _ _ _ hInv.valid hgp
            (valid_split_node R hW hH hWle hHle hRw hRh hsr) rfl
        · rw [registerAll_m_Root]
          exact canonical_setNode_nonfree hgp hInv.canon
            (canonical_split_node R c0 rest) (isFreeLeaf_split_node R c0 rest)
        · rw [registerAll_m_Root, registerAll_m_Width, registerAll_m_Height]
          rw [show ({ s with
            m_FreeRegionsByWidth := eraseKey R s.m_FreeRegionsByWidth
            m_FreeRegionsByHeight := eraseKey R s.m_FreeRegionsByHeight
            m_Root := setNode s.m_Root p
              (Node.mk R false (makeChildren (c0 :: rest))) } :
            DynamicAtlasManager).m_Root = setNode s.m_Root p
              (Node.mk R false (makeChildren (c0 :: rest))) from rfl]
          rw [hroot]
          exact hInv.rootR
        · exact registerAll_sortW _ _ (sorted_eraseKey _ hInv.sortW)
        · exact registerAll_sortH _ _ (sorted_eraseKey _ hInv.sortH)
        · exact registerAll_sortA _ _ hInv.sortA
        · intro r
          rw [registerAll_freeW_mem, registerAll_m_Root]
          rw [show ({ s with
            m_FreeRegionsByWidth := eraseKey R s.m_FreeRegionsByWidth
            m_FreeRegionsByHeight := eraseKey R s.m_FreeRegionsByHeight
            m_Root := setNode s.m_Root p
              (Node.mk R false (makeChildren (c0 :: rest))) } :
            DynamicAtlasManager).m_FreeRegionsByWidth =
            eraseKey R s.m_FreeRegionsByWidth from rfl]
          rw [mem_eraseKey, hInv.memW r, hdec', pairs_mem_erase hne r false,
            hpairs]
          simp only [List.mem_append, List.mem_cons, List.mem_map,
            Prod.mk.injEq]
          aesop
        · intro r
          rw [registerAll_freeH_mem, registerAll_m_Root]
          rw [show ({ s with
            m_FreeRegionsByWidth := eraseKey R s.m_FreeRegionsByWidth
            m_FreeRegionsByHeight := eraseKey R s.m_FreeRegionsByHeight
            m_Root := setNode s.m_Root p
              (Node.mk R false (makeChildren (c0 :: rest))) } :
            DynamicAtlasManager).m_FreeRegionsByHeight =
            eraseKey R s.m_FreeRegionsByHeight from rfl]
          rw [mem_eraseKey, hInv.memH r, hdec', pairs_mem_erase hne r false,
            hpairs]
          simp only [List.mem_append, List.mem_cons, List.mem_map,
            Prod.mk.injEq]
          aesop
        · intro r
          rw [registerAll_alloc_mem, registerAll_m_Root]
          rw [show ({ s with
            m_FreeRegionsByWidth := eraseKey R s.m_FreeRegionsByWidth
            m_FreeRegionsByHeight := eraseKey R s.m_FreeRegionsByHeight
            m_Root := setNode s.m_Root p
              (Node.mk R false (makeChildren (c0 :: rest))) } :
            DynamicAtlasManager).m_AllocatedRegions =
            s.m_AllocatedRegions from rfl]
          rw [hInv.memA r, hdec', mem_append_cons_flag (by simp), hpairs]
          simp only [List.mem_append, List.mem_cons, List.mem_map,
            Prod.mk.injEq]
          aesop
        · rw [registerAll_m_Width]
        · rw [registerAll_m_Height]

/-! ### Merge bookkeeping -/

theorem pairs_mem_erase_mid {A M B : List (Region × Bool)}
    (hne : List.Pairwise (fun x y : Region × Bool => x.1 ≠ y.1)
      (A ++ M ++ B)) (r : Region) (c : Bool) :
    ((r, c) ∈ A ++ M ++ B ∧ ∀ x ∈ M, r ≠ x.1) ↔ (r, c) ∈ A ++ B := by
  rw [List.pairwise_append] at hne
  obtain ⟨hAM, hB, hcross1⟩ := hne
  rw [List.pairwise_append] at hAM
  obtain ⟨hA, hM, hcross2⟩ := hAM
  constructor
  · rintro ⟨hm, hr⟩
    simp only [List.mem_append] at hm ⊢
    rcases hm with (h | h) | h
    · exact Or.inl h
    · exact absurd rfl (hr (r, c) h)
    · exact Or.inr h
  · intro hm
    simp only [List.mem_append] at hm ⊢
    constructor
    · rcases hm with h | h
      · exact Or.inl (Or.inl h)
      · exact Or.inr h
    · intro x hx
      rcases hm with h | h
      · exact hcross2 (r, c) h x hx
      · exact fun he =>
          (hcross1 x (List.mem_append.mpr (Or.inr hx)) (r, c) h) he.symm

theorem mem_append_mid_flag {A M B : List (Region × Bool)} {r : Region}
    {b c : Bool} (hM : ∀ x ∈ M, x.2 = b) (hbc : c ≠ b) :
    (r, c) ∈ A ++ M ++ B ↔ (r, c) ∈ A ++ B := by
  simp only [List.mem_append]
  constructor
  · rintro ((h | h) | h)
    · exact Or.inl h
    · exact absurd (hM (r, c) h) hbc
    · exact Or.inr h
  · rintro (h | h)
    · exact Or.inl (Or.inl h)
    · exact Or.inr h

/-- If all children are free leaves, the leaf list of the node is exactly
the children's regions with a `false` flag. -/
theorem allFree_pairs {R : Region} {a : Bool} {cs : List Node}
    (hcs : cs ≠ []) (hAF : ∀ c ∈ cs, c.isFreeLeaf = true) :
    (Node.mk R a cs).leafPairs = cs.map fun c => (c.R, false) := by
  rw [leafPairs_of_ne_nil _ _ hcs]
  induction cs with
  | nil => rfl
  | cons c rest ih =>
    simp only [leafPairsList, List.map_cons]
    rw [Node.isFreeLeaf_shape (hAF c (by simp))]
    simp only [Node.leafPairs, Node.R]
    rw [List.singleton_append]
    congr 1
    cases rest with
    | nil => rfl
    | cons d ds =>
      exact ih (by simp) (fun d' hd' => hAF d' (by simp [List.mem_cons] at hd' ⊢; tauto))

/-- The invariant without the canonicity component (carried separately
through the merge ascent). -/
structure PreInv (s : DynamicAtlasManager) : Prop where
  valid : Valid s.m_Root
  rootR : s.m_Root.R = ⟨0, 0, s.m_Width, s.m_Height⟩
  sortW : SortedBy widthFirstLt s.m_FreeRegionsByWidth
  sortH : SortedBy heightFirstLt s.m_FreeRegionsByHeight
  sortA : SortedBy widthFirstLt s.m_AllocatedRegions
  memW : ∀ r, r ∈ s.m_FreeRegionsByWidth ↔ (r, false) ∈ s.m_Root.leafPairs
  memH : ∀ r, r ∈ s.m_FreeRegionsByHeight ↔ (r, false) ∈ s.m_Root.leafPairs
  memA : ∀ r, r ∈ s.m_AllocatedRegions ↔ (r, true) ∈ s.m_Root.leafPairs

theorem ManagerInv.toPre {s : DynamicAtlasManager} (h : ManagerInv s) :
    PreInv s :=
  ⟨h.valid, h.rootR, h.sortW, h.sortH, h.sortA, h.memW, h.memH, h.memA⟩

theorem ManagerInv.ofPre {s : DynamicAtlasManager} (h : PreInv s)
    (hc : Canonical s.m_Root) : ManagerInv s :=
  ⟨h.valid, hc, h.rootR, h.sortW, h.sortH, h.sortA, h.memW, h.memH, h.memA⟩

theorem isFreeLeaf_not_alloc {n : Node} (h : n.isFreeLeaf = true) :
    n.IsAllocated = false := by
  cases n with
  | mk R a cs =>
    simp only [Node.isFreeLeaf, Node.IsAllocated, Node.HasChildren,
      Node.Children, Bool.and_eq_true, Bool.not_eq_true'] at h
    exact h.1

open DynamicAtlasManager in
/-- One iteration of the merge loop: unregister the all-free children of
the internal node at `p`, drop them, and re-register the node, preserving
the invariant (canonicity is tracked separately). -/
theorem merge_step_pre {s : DynamicAtlasManager} {p : List Nat} {RN : Region}
    {csN : List Node} (hpre : PreInv s)
    (hN : getNode s.m_Root p = some (Node.mk RN false csN))
    (hcsne : csN ≠ [])
    (hAF : ∀ c ∈ csN, c.isFreeLeaf = true) :
    PreInv (RegisterNode { unregisterAll s csN with
        m_Root := setNode (unregisterAll s csN).m_Root p
          (Node.mk RN false []) } RN false) ∧
    (RegisterNode { unregisterAll s csN with
        m_Root := setNode (unregisterAll s csN).m_Root p
          (Node.mk RN false []) } RN false).m_Root =
      setNode s.m_Root p (Node.mk RN false []) ∧
    (RegisterNode { unregisterAll s csN with
        m_Root := setNode (unregisterAll s csN).m_Root p
          (Node.mk RN false []) } RN false).m_Width = s.m_Width ∧
    (RegisterNode { unregisterAll s csN with
        m_Root := setNode (unregisterAll s csN).m_Root p
          (Node.mk RN false []) } RN false).m_Height = s.m_Height := by
  have hNv : Valid (Node.mk RN false csN) := valid_getNode p _ _ hpre.valid hN
  have hflags : ∀ c ∈ csN, c.IsAllocated = false :=
    fun c hc => isFreeLeaf_not_alloc (hAF c hc)
  have hNw : 0 < RN.width := by simpa [Node.R] using hNv.width_pos
  have hNh : 0 < RN.height := by simpa [Node.R] using hNv.height_pos
  have hNp : (Node.mk RN false csN).leafPairs =
      csN.map fun c => (c.R, false) := allFree_pairs hcsne hAF
  obtain ⟨A, B, hdec, hsetp⟩ := leafPairs_decomp p _ _ hN
  rw [hNp] at hdec
  have hne := valid_pairs_ne _ hpre.valid
  rw [hdec] at hne
  have hpairs' : (setNode s.m_Root p (Node.mk RN false [])).leafPairs =
      A ++ (RN, false) :: B := by
    simpa [Node.leafPairs] using hsetp (Node.mk RN false [])
  have hrootu : (unregisterAll s csN).m_Root = s.m_Root :=
    unregisterAll_m_Root csN s
  rw [RegisterNode_false, hrootu]
  refine ⟨⟨?_, ?_, ?_, ?_, ?_, ?_, ?_, ?_⟩, rfl, ?_, ?_⟩
  · exact valid_setNode p _ _ _ hpre.valid hN
      (Valid.leaf _ _ hNw hNh) rfl
  · dsimp only
    rw [@setNode_R p s.m_Root (Node.mk RN false []) (Node.mk RN false csN)
      hN rfl, unregisterAll_m_Width, unregisterAll_m_Height]
    exact hpre.rootR
  · exact insertW_sorted _ (unregisterAll_sortW csN s hpre.sortW)
  · exact insertH_sorted _ (unregisterAll_sortH csN s hpre.sortH)
  · exact unregisterAll_sortA csN s hpre.sortA
  · intro r
    rw [mem_insertSorted, unregisterAll_freeW_mem csN s hflags r, hpre.memW r,
      hdec, hpairs']
    rw [show (∀ c ∈ csN, r ≠ c.R) =
      (∀ x ∈ csN.map (fun c => (c.R, false)), r ≠ x.1) from by
        simp]
    rw [pairs_mem_erase_mid hne r false]
    simp only [List.mem_append, List.mem_cons, Prod.mk.injEq]
    tauto
  · intro r
    rw [mem_insertSorted, unregisterAll_freeH_mem csN s hflags r, hpre.memH r,
      hdec, hpairs']
    rw [show (∀ c ∈ csN, r ≠ c.R) =
      (∀ x ∈ csN.map (fun c => (c.R, false)), r ≠ x.1) from by
        simp]
    rw [pairs_mem_erase_mid hne r false]
    simp only [List.mem_append, List.mem_cons, Prod.mk.injEq]
    tauto
  · intro r
    dsimp only
    rw [unregisterAll_alloc csN s hflags, hpre.memA r, hdec, hpairs']
    rw [@mem_append_mid_flag A (List.map (fun c => (c.R, false)) csN) B r
      false true (by simp) (by simp)]
    rw [@mem_append_cons_flag A B RN r false true (by simp)]
  · dsimp only
    rw [unregisterAll_m_Width]
  · dsimp only
    rw [unregisterAll_m_Height]

open DynamicAtlasManager in
/-- The degenerate loop iteration at a leaf (`CanMergeChildren` is vacuously
true, `MergeChildren` drops nothing and `RegisterNode` emplaces an existing
key): the state is unchanged. -/
theorem merge_step_leaf_id {s : DynamicAtlasManager} {p : List Nat}
    {RN : Region} {aN : Bool} (hpre : PreInv s)
    (hN : getNode s.m_Root p = some (Node.mk RN aN [])) :
    RegisterNode { unregisterAll s ([] : List Node) with
        m_Root := setNode (unregisterAll s ([] : List Node)).m_Root p
          (Node.mk RN aN []) } RN aN = s := by
  rw [show unregisterAll s ([] : List Node) = s from rfl]
  rw [setNode_id p _ _ hN]
  rw [show ({ s with m_Root := s.m_Root } : DynamicAtlasManager) = s from rfl]
  cases aN with
  | true =>
    rw [RegisterNode_true, insertW_of_mem _ hpre.sortA
      ((hpre.memA RN).mpr (leaf_at_path_mem hN))]
  | false =>
    rw [RegisterNode_false,
      insertW_of_mem _ hpre.sortW ((hpre.memW RN).mpr (leaf_at_path_mem hN)),
      insertH_of_mem _ hpre.sortH ((hpre.memH RN).mpr (leaf_at_path_mem hN))]

open DynamicAtlasManager in
/-- The merge ascent preserves the invariant and leaves the tree fully
canonical when it stops. -/
theorem mergeAscend_pre : ∀ (p? : Option (List Nat)) (s : DynamicAtlasManager),
    PreInv s → CanonicalAway s.m_Root p? →
    PreInv (mergeAscend s p?) ∧ Canonical (mergeAscend s p?).m_Root ∧
    (mergeAscend s p?).m_Width = s.m_Width ∧
    (mergeAscend s p?).m_Height = s.m_Height
  | none, s => fun hpre hca => by
    rw [mergeAscend]
    exact ⟨hpre, hca, rfl, rfl⟩
  | some p, s => fun hpre hca => by
    rw [mergeAscend]
    cases hN : getNode s.m_Root p with
    | none => exact ⟨hpre, canonical_of_dangling hca hN, rfl, rfl⟩
    | some N =>
      dsimp only
      by_cases hcm : N.CanMergeChildren = true
      · rw [if_pos hcm]
        have hAF : AllFreeChildren N := (canMerge_iff_allFree N).mp hcm
        cases N with
        | mk RN aN csN =>
          cases csN with
          | nil =>
            dsimp only [Node.Children, Node.R, Node.IsAllocated]
            have hca' : CanonicalAway s.m_Root (parentPath p) := by
              intro q n hq hne hqp
              by_cases hqe : q = p
              · subst hqe
                rw [hq] at hN
                simp only [Option.some.injEq] at hN
                rw [hN] at hne
                simp [Node.Children] at hne
              · exact hca q n hq hne (by simpa using hqe)
            rw [merge_step_leaf_id hpre hN]
            exact mergeAscend_pre (parentPath p) s hpre hca'
          | cons c cs' =>
            have haN : aN = false :=
              (valid_getNode p _ _ hpre.valid hN).not_alloc_of_children
                (by simp)
            subst haN
            dsimp only [Node.Children, Node.R, Node.IsAllocated]
            have hAF' : ∀ d ∈ c :: cs', d.isFreeLeaf = true := by
              intro d hd
              exact hAF d (by simpa [Node.Children] using hd)
            obtain ⟨hpre3, hroot3, hw3, hh3⟩ :=
              merge_step_pre hpre hN (by simp) hAF'
            have hca3 : CanonicalAway (RegisterNode
                { unregisterAll s (c :: cs') with
                  m_Root := setNode (unregisterAll s (c :: cs')).m_Root p
                    (Node.mk RN false []) } RN false).m_Root
                (parentPath p) := by
              rw [hroot3]
              exact canonicalAway_set_leaf hN hca RN false
            obtain ⟨P1, P2, P3, P4⟩ :=
              mergeAscend_pre (parentPath p) _ hpre3 hca3
            exact ⟨P1, P2, by rw [P3, hw3], by rw [P4, hh3]⟩
      · rw [if_neg hcm]
        exact ⟨hpre, canonical_of_stop hca hN
          (fun hA => hcm ((canMerge_iff_allFree N).mpr hA)), rfl, rfl⟩
termination_by p? s => pathMeasure p?
decreasing_by
  all_goals
    have h1 := pathMeasure_parentPath p
    have h2 : pathMeasure (some p) = p.length + 1 := rfl
    omega

namespace DynamicAtlasManager

theorem Free_eq_miss {s : DynamicAtlasManager} {R : Region}
    (hmem : R ∉ s.m_AllocatedRegions) : s.Free R = (s, R) := by
  unfold Free
  rw [if_neg hmem]

theorem Free_eq_found {s : DynamicAtlasManager} {R : Region} {p : List Nat}
    (hmem : R ∈ s.m_AllocatedRegions)
    (hfp : s.m_Root.findLeafPath R true = some p) :
    s.Free R =
      (mergeAscend (RegisterNode { s.UnregisterNode R true with
          m_Root := setNode (s.UnregisterNode R true).m_Root p
            (Node.mk R false []) } R false) (parentPath p),
        InvalidRegion) := by
  unfold Free
  rw [if_pos hmem]
  rw [hfp]

theorem Free_eq_dangling {s : DynamicAtlasManager} {R : Region}
    (hmem : R ∈ s.m_AllocatedRegions)
    (hfp : s.m_Root.findLeafPath R true = none) : s.Free R = (s, R) := by
  unfold Free
  rw [if_pos hmem]
  rw [hfp]

end DynamicAtlasManager

open DynamicAtlasManager in
/-- `Free` preserves the invariant (and the atlas size). -/
theorem Free_Inv {s : DynamicAtlasManager} (hInv : ManagerInv s) (R : Region) :
    ManagerInv (s.Free R).1 ∧
    (s.Free R).1.m_Width = s.m_Width ∧
    (s.Free R).1.m_Height = s.m_Height := by
  by_cases hmem : R ∈ s.m_AllocatedRegions
  · have hRmem : (R, true) ∈ s.m_Root.leafPairs := (hInv.memA R).mp hmem
    cases hfp : s.m_Root.findLeafPath R true with
    | none =>
      obtain ⟨p, hp⟩ := findLeafPath_complete _ _ _ hRmem
      rw [hp] at hfp
      exact absurd hfp (by simp)
    | some p =>
      rw [Free_eq_found hmem hfp]
      have hgp := findLeafPath_sound _ _ _ _ hfp
      obtain ⟨hcont, hRw, hRh⟩ := valid_pairs_facts _ hInv.valid _ hRmem
      obtain ⟨A, B, hdec, hsetp⟩ := leafPairs_decomp p _ _ hgp
      have hdec' : s.m_Root.leafPairs = A ++ (R, true) :: B := by
        simpa [Node.leafPairs] using hdec
      have hne := valid_pairs_ne _ hInv.valid
      rw [hdec'] at hne
      have hpairs' : (setNode s.m_Root p (Node.mk R false [])).leafPairs =
          A ++ (R, false) :: B := by
        simpa [Node.leafPairs] using hsetp (Node.mk R false [])
      rw [UnregisterNode_true, RegisterNode_false]
      have hpre3 : PreInv
          ({ s with
            m_AllocatedRegions := eraseKey R s.m_AllocatedRegions
            m_Root := setNode s.m_Root p (Node.mk R false [])
            m_FreeRegionsByWidth :=
              insertSorted widthFirstLt R s.m_FreeRegionsByWidth
            m_FreeRegionsByHeight :=
              insertSorted heightFirstLt R s.m_FreeRegionsByHeight } :
            DynamicAtlasManager) := by
        refine ⟨?_, ?_, ?_, ?_, ?_, ?_, ?_, ?_⟩
        · exact valid_setNode p _ _ _ hInv.valid hgp
            (Valid.leaf _ _ hRw hRh) rfl
        · dsimp only
          rw [@setNode_R p s.m_Root (Node.mk R false [])
            (Node.mk R true []) hgp rfl]
          exact hInv.rootR
        · exact insertW_sorted R hInv.sortW
        · exact insertH_sorted R hInv.sortH
        · exact sorted_eraseKey _ hInv.sortA
        · intro r
          dsimp only
          rw [mem_insertSorted, hInv.memW r, hdec', hpairs']
          rw [@mem_append_cons_flag A B R r true false (by simp)]
          simp only [List.mem_append, List.mem_cons, Prod.mk.injEq]
          tauto
        · intro r
          dsimp only
          rw [mem_insertSorted, hInv.memH r, hdec', hpairs']
          rw [@mem_append_cons_flag A B R r true false (by simp)]
          simp only [List.mem_append, List.mem_cons, Prod.mk.injEq]
          tauto
        · intro r
          dsimp only
          rw [mem_eraseKey, hInv.memA r, hdec', hpairs']
          rw [pairs_mem_erase hne r true]
          rw [@mem_append_cons_flag A B R r false true (by simp)]
      have hca3 : CanonicalAway
          (({ s with
            m_AllocatedRegions := eraseKey R s.m_AllocatedRegions
            m_Root := setNode s.m_Root p (Node.mk R false [])
            m_FreeRegionsByWidth :=
              insertSorted widthFirstLt R s.m_FreeRegionsByWidth
            m_FreeRegionsByHeight :=
              insertSorted heightFirstLt R s.m_FreeRegionsByHeight } :
            DynamicAtlasManager)).m_Root (parentPath p) := by
        dsimp only
        exact canonicalAway_set_leaf hgp
          (canonicalAway_weaken hInv.canon (some p)) R false
      obtain ⟨P1, P2, P3, P4⟩ := mergeAscend_pre (parentPath p) _ hpre3 hca3
      exact ⟨ManagerInv.ofPre P1 P2, by rw [P3], by rw [P4]⟩
  · rw [Free_eq_miss hmem]
    exact ⟨hInv, rfl, rfl⟩

/-! ### Reachable states -/

/-- Manager states reachable by legal calls: construction with positive
`Uint32` dimensions, `Allocate` with positive `Uint32` dimensions, and
`Free` of any region (an unknown region is rejected without any state
change, so legality of the argument is immaterial for the state). -/
inductive Reachable : DynamicAtlasManager → Prop
  | init (W H : Nat) (hW : 0 < W) (hH : 0 < H) (hW' : W < U32)
      (hH' : H < U32) : Reachable (DynamicAtlasManager.new W H)
  | alloc (s : DynamicAtlasManager) (W H : Nat) (hW : 0 < W) (hH : 0 < H)
      (hW' : W < U32) (hH' : H < U32) (hs : Reachable s) :
      Reachable (s.Allocate W H).2
  | free (s : DynamicAtlasManager) (R : Region) (hs : Reachable s) :
      Reachable (s.Free R).1

/-- Every reachable state satisfies the invariant. -/
theorem reachable_Inv {s : DynamicAtlasManager} (h : Reachable s) :
    ManagerInv s := by
  induction h with
  | init W H hW hH _ _ => exact new_Inv W H hW hH
  | alloc s W H hW hH _ _ _ ih => exact (Allocate_Inv ih W H hW hH).1
  | free s R _ ih => exact (Free_Inv ih R).1

/-! ### Utilities for the round-trip theorem -/

theorem setNode_setNode : ∀ (p : List Nat) (t n m m' : Node),
    getNode t p = some n → setNode (setNode t p m) p m' = setNode t p m' := by
  intro p
  induction p with
  | nil => intro t n m m' _; rw [setNode_nil, setNode_nil]
  | cons i p' ih =>
    intro t n m m' h
    cases t with
    | mk R a cs =>
      rw [getNode_cons] at h
      simp only [Node.Children] at h
      cases hc : cs[i]? with
      | none => rw [hc] at h; exact absurd h (by simp)
      | some c =>
        rw [hc] at h
        have hlt : i < cs.length := (List.getElem?_eq_some_iff.mp hc).1
        simp only [setNode, hc]
        rw [List.getElem?_set_self (by simpa using hlt)]
        dsimp only
        rw [List.set_set]
        rw [ih c n m m' h]

theorem region_flag_unique {l : List (Region × Bool)} {R : Region}
    {b c : Bool}
    (hne : List.Pairwise (fun x y : Region × Bool => x.1 ≠ y.1) l)
    (hb : (R, b) ∈ l) (hc : (R, c) ∈ l) : b = c := by
  induction l with
  | nil => simp at hb
  | cons a rest ih =>
    rw [List.pairwise_cons] at hne
    rcases List.mem_cons.mp hb with he | hb' <;>
      rcases List.mem_cons.mp hc with he' | hc'
    · exact (Prod.ext_iff.mp (he.trans he'.symm)).2
    · exact absurd (congrArg Prod.fst he.symm).symm
        (fun hx => (hne.1 (R, c) hc') hx.symm)
    · exact absurd (congrArg Prod.fst he'.symm).symm
        (fun hx => (hne.1 (R, b) hb') hx.symm)
    · exact ih hne.2 hb' hc'

theorem eraseW_insert_fresh (R : Region) {l : List Region}
    (hs : SortedBy widthFirstLt l) (hfresh : R ∉ l) :
    eraseKey R (insertSorted widthFirstLt R l) = l := by
  refine sortedW_ext (sorted_eraseKey _ (insertW_sorted R hs)) hs ?_
  intro x
  rw [mem_eraseKey, mem_insertSorted]
  constructor
  · rintro ⟨h1 | h1, h2⟩
    · exact absurd h1 h2
    · exact h1
  · intro h
    exact ⟨Or.inr h, fun he => hfresh (he ▸ h)⟩

theorem insertW_erase_of_mem (R : Region) {l : List Region}
    (hs : SortedBy widthFirstLt l) (hmem : R ∈ l) :
    insertSorted widthFirstLt R (eraseKey R l) = l := by
  refine sortedW_ext (insertW_sorted R (sorted_eraseKey _ hs)) hs ?_
  intro x
  rw [mem_insertSorted, mem_eraseKey]
  constructor
  · rintro (h | ⟨h, _⟩)
    · exact h ▸ hmem
    · exact h
  · intro h
    by_cases he : x = R
    · exact Or.inl he
    · exact Or.inr ⟨h, he⟩

theorem insertH_erase_of_mem (R : Region) {l : List Region}
    (hs : SortedBy heightFirstLt l) (hmem : R ∈ l) :
    insertSorted heightFirstLt R (eraseKey R l) = l := by
  refine sortedH_ext (insertH_sorted R (sorted_eraseKey _ hs)) hs ?_
  intro x
  rw [mem_insertSorted, mem_eraseKey]
  constructor
  · rintro (h | ⟨h, _⟩)
    · exact h ▸ hmem
    · exact h
  · intro h
    by_cases he : x = R
    · exact Or.inl he
    · exact Or.inr ⟨h, he⟩

theorem manager_ext {a b : DynamicAtlasManager}
    (h1 : a.m_Width = b.m_Width) (h2 : a.m_Height = b.m_Height)
    (h3 : a.m_Root = b.m_Root)
    (h4 : a.m_FreeRegionsByWidth = b.m_FreeRegionsByWidth)
    (h5 : a.m_FreeRegionsByHeight = b.m_FreeRegionsByHeight)
    (h6 : a.m_AllocatedRegions = b.m_AllocatedRegions) : a = b := by
  cases a; cases b
  simp_all

namespace DynamicAtlasManager

theorem mergeAscend_none (s : DynamicAtlasManager) :
    mergeAscend s none = s := by
  rw [mergeAscend]

theorem mergeAscend_dangling {s : DynamicAtlasManager} {p : List Nat}
    (hN : getNode s.m_Root p = none) : mergeAscend s (some p) = s := by
  rw [mergeAscend, hN]

theorem mergeAscend_stop {s : DynamicAtlasManager} {p : List Nat} {N : Node}
    (hN : getNode s.m_Root p = some N)
    (hcm : ¬N.CanMergeChildren = true) : mergeAscend s (some p) = s := by
  rw [mergeAscend, hN]
  dsimp only
  rw [if_neg hcm]

theorem mergeAscend_merge {s : DynamicAtlasManager} {p : List Nat} {N : Node}
    (hN : getNode s.m_Root p = some N)
    (hcm : N.CanMergeChildren = true) :
    mergeAscend s (some p) =
      mergeAscend (RegisterNode { unregisterAll s N.Children with
          m_Root := setNode (unregisterAll s N.Children).m_Root p
            (Node.mk N.R N.IsAllocated []) } N.R N.IsAllocated)
        (parentPath p) := by
  rw [mergeAscend, hN]
  dsimp only
  rw [if_pos hcm]

end DynamicAtlasManager

open DynamicAtlasManager in
/-- On a canonical state the merge ascent is the identity: every internal
node already fails the merge condition. -/
theorem mergeAscend_canonical_id : ∀ (p? : Option (List Nat))
    (s : DynamicAtlasManager), PreInv s → Canonical s.m_Root →
    mergeAscend s p? = s
  | none, s => fun _ _ => mergeAscend_none s
  | some p, s => fun hpre hc => by
    cases hN : getNode s.m_Root p with
    | none => exact mergeAscend_dangling hN
    | some N =>
      cases hcsn : N.Children with
      | nil =>
        have hNeq : N = Node.mk N.R N.IsAllocated [] := by
          rw [← hcsn]
          exact Node.eta N
        rw [mergeAscend_merge hN (by
          rw [Node.CanMergeChildren, hcsn]
          rfl)]
        rw [hcsn]
        rw [merge_step_leaf_id hpre (hNeq ▸ hN)]
        exact mergeAscend_canonical_id (parentPath p) s hpre hc
      | cons c cs' =>
        refine mergeAscend_stop hN ?_
        intro hcm
        exact hc p N hN (by rw [hcsn]; simp) (by simp)
          ((canMerge_iff_allFree N).mp hcm)
termination_by p? s => pathMeasure p?
decreasing_by
  all_goals
    have h1 := pathMeasure_parentPath p
    have h2 : pathMeasure (some p) = p.length + 1 := rfl
    omega

theorem canonical_child {R : Region} {a : Bool} {cs : List Node}
    (hc : Canonical (Node.mk R a cs)) {c : Node} (hcm : c ∈ cs) :
    Canonical c := by
  intro q n hq hne _
  obtain ⟨i, hi⟩ := List.getElem?_of_mem hcm
  refine hc (i :: q) n ?_ hne (by simp)
  rw [getNode_cons]
  simp only [Node.Children]
  rw [hi]
  exact hq

theorem leafPairs_child_subset {R : Region} {a : Bool} {cs : List Node}
    {c : Node} (hcm : c ∈ cs) {x : Region × Bool} (hx : x ∈ c.leafPairs) :
    x ∈ (Node.mk R a cs).leafPairs := by
  have hcs : cs ≠ [] := by
    intro he; subst he; simp at hcm
  rw [leafPairs_of_ne_nil _ _ hcs]
  exact mem_leafPairsList.mpr ⟨c, hcm, hx⟩

/-- A canonical tree without allocated leaves is a single free leaf. -/
theorem canonical_all_free_leaf : ∀ t : Node, Canonical t →
    (∀ r, (r, true) ∉ t.leafPairs) → t = Node.mk t.R false [] := by
  intro t
  induction t using Node.indOn with
  | h R a cs ih =>
    intro hc hno
    cases cs with
    | nil =>
      cases a with
      | false => rfl
      | true =>
        exact absurd (by simp [Node.leafPairs] : (R, true) ∈
          (Node.mk R true ([] : List Node)).leafPairs) (hno R)
    | cons c cs' =>
      exfalso
      have hnc := hc [] (Node.mk R a (c :: cs')) rfl (by simp [Node.Children])
        (by simp)
      rw [AllFreeChildren] at hnc
      push_neg at hnc
      obtain ⟨d, hd, hdf⟩ := hnc
      simp only [Node.Children] at hd
      cases hdc : d.Children with
      | nil =>
        have hda : d.IsAllocated = true := by
          cases hda : d.IsAllocated
          · exfalso
            apply hdf
            simp [Node.isFreeLeaf, hda, Node.HasChildren, hdc]
          · rfl
        have hshape : d = Node.mk d.R true [] := by
          conv_lhs => rw [Node.eta d]
          rw [hda, hdc]
        apply hno d.R
        refine leafPairs_child_subset hd ?_
        have hlp : d.leafPairs = [(d.R, true)] := by
          conv_lhs => rw [hshape]
          simp [Node.leafPairs]
        rw [hlp]
        simp
      | cons e es =>
        have hdleaf := ih d hd (canonical_child hc hd)
          (fun r hr => hno r (leafPairs_child_subset hd hr))
        rw [hdleaf] at hdc
        simp [Node.Children] at hdc

theorem pairwise_ne_cross {A M B : List (Region × Bool)}
    (hne : List.Pairwise (fun x y : Region × Bool => x.1 ≠ y.1)
      (A ++ M ++ B)) :
    ∀ x ∈ M, ∀ y, (y ∈ A ∨ y ∈ B) →
      Prod.fst x ≠ Prod.fst y := by
  rw [List.pairwise_append] at hne
  obtain ⟨hAM, hB, hcross1⟩ := hne
  rw [List.pairwise_append] at hAM
  obtain ⟨hA, hM, hcross2⟩ := hAM
  intro x hx y hy
  rcases hy with hy | hy
  · exact fun he => (hcross2 y hy x hx) he.symm
  · exact hcross1 x (List.mem_append.mpr (Or.inr hx)) y hy

open DynamicAtlasManager in
/-- Round trip, exact-fit case: freeing the region immediately after an
exact-fit allocation restores the original state. -/
theorem roundtrip_exact {s : DynamicAtlasManager} (hInv : ManagerInv s)
    {W H : Nat} {R : Region} {p : List Nat}
    (hcs : chooseSource s W H = some R)
    (hfp : s.m_Root.findLeafPath R false = some p)
    (hsr : splitRegions R W H = []) :
    (s.Allocate W H).2.Free (s.Allocate W H).1 = (s, InvalidRegion) := by
  have hgp := findLeafPath_sound _ _ _ _ hfp
  obtain ⟨hRmem, hWle, hHle⟩ := chooseSource_fits hInv hcs
  obtain ⟨A, B, hdec, hsetp⟩ := leafPairs_decomp p _ _ hgp
  have hdec' : s.m_Root.leafPairs = A ++ (R, false) :: B := by
    simpa [Node.leafPairs] using hdec
  have hne := valid_pairs_ne _ hInv.valid
  rw [hdec'] at hne
  have hfreshA : R ∉ s.m_AllocatedRegions := by
    intro hmem
    have h1 := (hInv.memA R).mp hmem
    rw [hdec'] at h1
    have h2 : (R, false) ∈ A ++ (R, false) :: B := by simp
    exact absurd (region_flag_unique hne h1 h2) (by decide)
  have hmemW : R ∈ s.m_FreeRegionsByWidth := (hInv.memW R).mpr hRmem
  have hmemH : R ∈ s.m_FreeRegionsByHeight := (hInv.memH R).mpr hRmem
  rw [Allocate_eq_exact hcs hfp hsr, UnregisterNode_false, RegisterNode_true]
  dsimp only
  obtain ⟨hcont, hRw, hRh⟩ := valid_pairs_facts _ hInv.valid _ hRmem
  have hvalid' : Valid (setNode s.m_Root p (Node.mk R true [])) :=
    valid_setNode p _ _ _ hInv.valid hgp (Valid.leaf _ _ hRw hRh) rfl
  have hgp' : getNode (setNode s.m_Root p (Node.mk R true [])) p =
      some (Node.mk R true []) :=
    getNode_setNode_self p _ _ _ hgp
  have hmem' : R ∈ insertSorted widthFirstLt R s.m_AllocatedRegions :=
    (mem_insertSorted _ _ _ _).mpr (Or.inl rfl)
  have hpairs' : (setNode s.m_Root p (Node.mk R true [])).leafPairs =
      A ++ (R, true) :: B := by
    simpa [Node.leafPairs] using hsetp (Node.mk R true [])
  have hfq : Node.findLeafPath (setNode s.m_Root p (Node.mk R true [])) R
      true = some p := by
    obtain ⟨q, hq⟩ := findLeafPath_complete
      (setNode s.m_Root p (Node.mk R true [])) R true (by
        rw [hpairs']; simp)
    have hsq := findLeafPath_sound _ _ _ _ hq
    by_cases hqp : q = p
    · rw [hqp] at hq; exact hq
    · exact absurd rfl (leaf_path_unique q p _ R R true true hvalid' hsq
        hgp' hqp)
  rw [Free_eq_found hmem' hfq, UnregisterNode_true, RegisterNode_false]
  dsimp only
  rw [setNode_setNode p _ _ _ _ hgp, setNode_id p _ _ hgp]
  rw [insertW_erase_of_mem R hInv.sortW hmemW,
    insertH_erase_of_mem R hInv.sortH hmemH,
    eraseW_insert_fresh R hInv.sortA hfreshA]
  rw [show DynamicAtlasManager.mk s.m_Width s.m_Height s.m_Root
      s.m_FreeRegionsByWidth s.m_FreeRegionsByHeight s.m_AllocatedRegions =
      s from rfl]
  rw [mergeAscend_canonical_id (parentPath p) s hInv.toPre hInv.canon]

open DynamicAtlasManager in
/-- Round trip, split case: freeing `Child(0)` right after a splitting
allocation merges the children back and restores the original state.
`s'` is the post-allocation state, given through its characterising
properties. -/
theorem free_after_split {s s' : DynamicAtlasManager} (hInv : ManagerInv s)
    {R c0 : Region} {rest : List Region} {p : List Nat}
    (hgp : getNode s.m_Root p = some (Node.mk R false []))
    (hpre' : PreInv s')
    (hW' : s'.m_Width = s.m_Width) (hH' : s'.m_Height = s.m_Height)
    (hroot' : s'.m_Root = setNode s.m_Root p
      (Node.mk R false (makeChildren (c0 :: rest)))) :
    s'.Free c0 = (s, InvalidRegion) := by
  have hgm : getNode s'.m_Root p =
      some (Node.mk R false (makeChildren (c0 :: rest))) := by
    rw [hroot']
    exact getNode_setNode_self p _ _ _ hgp
  have hgq : getNode s'.m_Root (p ++ [0]) = some (Node.mk c0 true []) := by
    rw [getNode_append, hgm]
    have h0 : getNode (Node.mk R false (makeChildren (c0 :: rest))) [0] =
        some (Node.mk c0 true []) := by
      rw [getNode_cons]
      simp [Node.Children, makeChildren, getNode]
    simp [h0]
  obtain ⟨A, B, hdec0, hsetp⟩ := leafPairs_decomp p s.m_Root _ hgp
  have hdec' : s.m_Root.leafPairs = A ++ (R, false) :: B := by
    simpa [Node.leafPairs] using hdec0
  have hmpairs : (Node.mk R false (makeChildren (c0 :: rest))).leafPairs
      = (c0, true) :: rest.map fun r => (r, false) := by
    rw [leafPairs_of_ne_nil _ _ (by rw [makeChildren]; simp)]
    exact makeChildren_pairs c0 rest
  have hpairs' : s'.m_Root.leafPairs =
      A ++ ((c0, true) :: rest.map fun r => (r, false)) ++ B := by
    rw [hroot', hsetp (Node.mk R false (makeChildren (c0 :: rest))), hmpairs]
  have hneS' := valid_pairs_ne _ hpre'.valid
  rw [hpairs'] at hneS'
  have hmemC0' : c0 ∈ s'.m_AllocatedRegions := by
    rw [hpre'.memA, hpairs']
    simp
  have hfq : s'.m_Root.findLeafPath c0 true = some (p ++ [0]) := by
    obtain ⟨q0, hq0⟩ := findLeafPath_complete s'.m_Root c0 true
      (by rw [hpairs']; simp)
    have hsq0 := findLeafPath_sound _ _ _ _ hq0
    by_cases hqe : q0 = p ++ [0]
    · rw [hqe] at hq0; exact hq0
    · exact absurd rfl (leaf_path_unique q0 (p ++ [0]) _ c0 c0 true true
        hpre'.valid hsq0 hgq hqe)
  have hpp : parentPath (p ++ [0]) = some p := by
    rw [parentPath_of_ne_nil (by simp)]
    simp
  rw [Free_eq_found hmemC0' hfq, hpp]
  have hXr2 : setNode s'.m_Root (p ++ [0]) (Node.mk c0 false []) =
      setNode s.m_Root p (Node.mk R false
        (Node.mk c0 false [] :: rest.map fun r => Node.mk r false [])) := by
    have hset0 : setNode (Node.mk R false (makeChildren (c0 :: rest))) [0]
        (Node.mk c0 false []) = Node.mk R false
          (Node.mk c0 false [] :: rest.map fun r => Node.mk r false []) := by
      simp [setNode, makeChildren]
    rw [hroot']
    rw [setNode_append p [0] _ _ _ (getNode_setNode_self p _ _ _ hgp)]
    rw [setNode_setNode p _ _ _ _ hgp, hset0]
  have hgN' : getNode (RegisterNode { UnregisterNode s' c0 true with
      m_Root := setNode (UnregisterNode s' c0 true).m_Root (p ++ [0])
        (Node.mk c0 false []) } c0 false).m_Root p =
      some (Node.mk R false
        (Node.mk c0 false [] :: rest.map fun r => Node.mk r false [])) := by
    show getNode (setNode s'.m_Root (p ++ [0]) (Node.mk c0 false [])) p = _
    rw [hXr2]
    exact getNode_setNode_self p _ _ _ hgp
  have hcm : (Node.mk R false
      (Node.mk c0 false [] :: rest.map fun r => Node.mk r false [])
        ).CanMergeChildren = true := by
    rw [canMerge_iff_allFree]
    intro c hc
    simp only [Node.Children] at hc
    rcases List.mem_cons.mp hc with rfl | hc'
    · rfl
    · obtain ⟨r, _, rfl⟩ := List.mem_map.mp hc'
      rfl
  rw [@mergeAscend_merge (RegisterNode { UnregisterNode s' c0 true with
      m_Root := setNode (UnregisterNode s' c0 true).m_Root (p ++ [0])
        (Node.mk c0 false []) } c0 false) p
    (Node.mk R false
      (Node.mk c0 false [] :: rest.map fun r => Node.mk r false []))
    hgN' hcm]
  show (mergeAscend (RegisterNode { unregisterAll
      (RegisterNode { UnregisterNode s' c0 true with
        m_Root := setNode (UnregisterNode s' c0 true).m_Root (p ++ [0])
          (Node.mk c0 false []) } c0 false)
      (Node.mk c0 false [] :: rest.map fun r => Node.mk r false []) with
      m_Root := setNode (unregisterAll
        (RegisterNode { UnregisterNode s' c0 true with
          m_Root := setNode (UnregisterNode s' c0 true).m_Root (p ++ [0])
            (Node.mk c0 false []) } c0 false)
        (Node.mk c0 false [] :: rest.map fun r => Node.mk r false [])).m_Root
        p (Node.mk R false []) } R false) (parentPath p),
    InvalidRegion) = (s, InvalidRegion)
  have hall : ∀ c ∈ (Node.mk c0 false [] ::
      rest.map fun r => Node.mk r false []), c.IsAllocated = false := by
    intro c hc
    rcases List.mem_cons.mp hc with rfl | hc'
    · rfl
    · obtain ⟨r, _, rfl⟩ := List.mem_map.mp hc'
      rfl
  have hsortXW : SortedBy widthFirstLt
      (RegisterNode { UnregisterNode s' c0 true with
        m_Root := setNode (UnregisterNode s' c0 true).m_Root (p ++ [0])
          (Node.mk c0 false []) } c0 false).m_FreeRegionsByWidth := by
    show SortedBy widthFirstLt
      (insertSorted widthFirstLt c0 s'.m_FreeRegionsByWidth)
    exact insertW_sorted c0 hpre'.sortW
  have hsortXH : SortedBy heightFirstLt
      (RegisterNode { UnregisterNode s' c0 true with
        m_Root := setNode (UnregisterNode s' c0 true).m_Root (p ++ [0])
          (Node.mk c0 false []) } c0 false).m_FreeRegionsByHeight := by
    show SortedBy heightFirstLt
      (insertSorted heightFirstLt c0 s'.m_FreeRegionsByHeight)
    exact insertH_sorted c0 hpre'.sortH
  have hXfwmem : ∀ x, x ∈ (RegisterNode { UnregisterNode s' c0 true with
      m_Root := setNode (UnregisterNode s' c0 true).m_Root (p ++ [0])
        (Node.mk c0 false []) } c0 false).m_FreeRegionsByWidth ↔
      x = c0 ∨ x ∈ s'.m_FreeRegionsByWidth := by
    intro x
    show x ∈ insertSorted widthFirstLt c0 s'.m_FreeRegionsByWidth ↔ _
    exact mem_insertSorted _ _ _ _
  have hXfhmem : ∀ x, x ∈ (RegisterNode { UnregisterNode s' c0 true with
      m_Root := setNode (UnregisterNode s' c0 true).m_Root (p ++ [0])
        (Node.mk c0 false []) } c0 false).m_FreeRegionsByHeight ↔
      x = c0 ∨ x ∈ s'.m_FreeRegionsByHeight := by
    intro x
    show x ∈ insertSorted heightFirstLt c0 s'.m_FreeRegionsByHeight ↔ _
    exact mem_insertSorted _ _ _ _
  have hcsR : ∀ x : Region, (∀ c ∈ (Node.mk c0 false [] ::
      rest.map fun r => Node.mk r false []), x ≠ c.R) ↔
      (x ≠ c0 ∧ ∀ r ∈ rest, x ≠ r) := by
    intro x
    constructor
    · intro h
      refine ⟨h (Node.mk c0 false []) (List.mem_cons.mpr (Or.inl rfl)),
        fun r hr => ?_⟩
      exact h (Node.mk r false [])
        (List.mem_cons.mpr (Or.inr (List.mem_map.mpr ⟨r, hr, rfl⟩)))
    · rintro ⟨h0, hr⟩ c hc
      rcases List.mem_cons.mp hc with rfl | hc'
      · exact h0
      · obtain ⟨r, hrm, rfl⟩ := List.mem_map.mp hc'
        exact hr r hrm
  have hY : (RegisterNode { unregisterAll
      (RegisterNode { UnregisterNode s' c0 true with
        m_Root := setNode (UnregisterNode s' c0 true).m_Root (p ++ [0])
          (Node.mk c0 false []) } c0 false)
      (Node.mk c0 false [] :: rest.map fun r => Node.mk r false []) with
      m_Root := setNode (unregisterAll
        (RegisterNode { UnregisterNode s' c0 true with
          m_Root := setNode (UnregisterNode s' c0 true).m_Root (p ++ [0])
            (Node.mk c0 false []) } c0 false)
        (Node.mk c0 false [] :: rest.map fun r => Node.mk r false [])).m_Root
        p (Node.mk R false []) } R false) = s := by
    refine manager_ext ?_ ?_ ?_ ?_ ?_ ?_
    · show (unregisterAll (RegisterNode { UnregisterNode s' c0 true with
        m_Root := setNode (UnregisterNode s' c0 true).m_Root (p ++ [0])
          (Node.mk c0 false []) } c0 false)
        (Node.mk c0 false [] :: rest.map fun r => Node.mk r false [])
          ).m_Width = s.m_Width
      rw [unregisterAll_m_Width]
      exact hW'
    · show (unregisterAll (RegisterNode { UnregisterNode s' c0 true with
        m_Root := setNode (UnregisterNode s' c0 true).m_Root (p ++ [0])
          (Node.mk c0 false []) } c0 false)
        (Node.mk c0 false [] :: rest.map fun r => Node.mk r false [])
          ).m_Height = s.m_Height
      rw [unregisterAll_m_Height]
      exact hH'
    · show setNode (unregisterAll (RegisterNode { UnregisterNode s' c0 true with
        m_Root := setNode (UnregisterNode s' c0 true).m_Root (p ++ [0])
          (Node.mk c0 false []) } c0 false)
        (Node.mk c0 false [] :: rest.map fun r => Node.mk r false [])
          ).m_Root p (Node.mk R false []) = s.m_Root
      rw [unregisterAll_m_Root]
      show setNode (setNode s'.m_Root (p ++ [0]) (Node.mk c0 false [])) p
        (Node.mk R false []) = s.m_Root
      rw [hXr2, setNode_setNode p _ _ _ _ hgp, setNode_id p _ _ hgp]
    · show insertSorted widthFirstLt R (unregisterAll
        (RegisterNode { UnregisterNode s' c0 true with
          m_Root := setNode (UnregisterNode s' c0 true).m_Root (p ++ [0])
            (Node.mk c0 false []) } c0 false)
        (Node.mk c0 false [] :: rest.map fun r => Node.mk r false [])
          ).m_FreeRegionsByWidth = s.m_FreeRegionsByWidth
      refine sortedW_ext (insertW_sorted R (unregisterAll_sortW _ _ hsortXW))
        hInv.sortW ?_
      intro x
      rw [mem_insertSorted, unregisterAll_freeW_mem _ _ hall x, hXfwmem x,
        hcsR x, hpre'.memW x, hpairs', hInv.memW x, hdec']
      have hmid := pairs_mem_erase_mid hneS' x false
      constructor
      · rintro (rfl | ⟨hc | hP, hne0, hQ⟩)
        · simp
        · exact absurd hc hne0
        · have h2 := hmid.mp ⟨hP, by
            intro y hy
            rcases List.mem_cons.mp hy with rfl | hy'
            · exact hne0
            · obtain ⟨r, hrm, rfl⟩ := List.mem_map.mp hy'
              exact hQ r hrm⟩
          rcases List.mem_append.mp h2 with h | h
          · exact List.mem_append.mpr (Or.inl h)
          · exact List.mem_append.mpr (Or.inr (List.mem_cons.mpr (Or.inr h)))
      · intro hm
        rcases List.mem_append.mp hm with h | h
        · have h2 := hmid.mpr (List.mem_append.mpr (Or.inl h))
          refine Or.inr ⟨Or.inr h2.1, ?_, ?_⟩
          · exact h2.2 (c0, true) (List.mem_cons.mpr (Or.inl rfl))
          · intro r hrm
            exact h2.2 (r, false)
              (List.mem_cons.mpr (Or.inr (List.mem_map.mpr ⟨r, hrm, rfl⟩)))
        · rcases List.mem_cons.mp h with he | h'
          · exact Or.inl (congrArg Prod.fst he)
          · have h2 := hmid.mpr (List.mem_append.mpr (Or.inr h'))
            refine Or.inr ⟨Or.inr h2.1, ?_, ?_⟩
            · exact h2.2 (c0, true) (List.mem_cons.mpr (Or.inl rfl))
            · intro r hrm
              exact h2.2 (r, false)
                (List.mem_cons.mpr (Or.inr (List.mem_map.mpr ⟨r, hrm, rfl⟩)))
    · show insertSorted heightFirstLt R (unregisterAll
        (RegisterNode { UnregisterNode s' c0 true with
          m_Root := setNode (UnregisterNode s' c0 true).m_Root (p ++ [0])
            (Node.mk c0 false []) } c0 false)
        (Node.mk c0 false [] :: rest.map fun r => Node.mk r false [])
          ).m_FreeRegionsByHeight = s.m_FreeRegionsByHeight
      refine sortedH_ext (insertH_sorted R (unregisterAll_sortH _ _ hsortXH))
        hInv.sortH ?_
      intro x
      rw [mem_insertSorted, unregisterAll_freeH_mem _ _ hall x, hXfhmem x,
        hcsR x, hpre'.memH x, hpairs', hInv.memH x, hdec']
      have hmid := pairs_mem_erase_mid hneS' x false
      constructor
      · rintro (rfl | ⟨hc | hP, hne0, hQ⟩)
        · simp
        · exact absurd hc hne0
        · have h2 := hmid.mp ⟨hP, by
            intro y hy
            rcases List.mem_cons.mp hy with rfl | hy'
            · exact hne0
            · obtain ⟨r, hrm, rfl⟩ := List.mem_map.mp hy'
              exact hQ r hrm⟩
          rcases List.mem_append.mp h2 with h | h
          · exact List.mem_append.mpr (Or.inl h)
          · exact List.mem_append.mpr (Or.inr (List.mem_cons.mpr (Or.inr h)))
      · intro hm
        rcases List.mem_append.mp hm with h | h
        · have h2 := hmid.mpr (List.mem_append.mpr (Or.inl h))
          refine Or.inr ⟨Or.inr h2.1, ?_, ?_⟩
          · exact h2.2 (c0, true) (List.mem_cons.mpr (Or.inl rfl))
          · intro r hrm
            exact h2.2 (r, false)
              (List.mem_cons.mpr (Or.inr (List.mem_map.mpr ⟨r, hrm, rfl⟩)))
        · rcases List.mem_cons.mp h with he | h'
          · exact Or.inl (congrArg Prod.fst he)
          · have h2 := hmid.mpr (List.mem_append.mpr (Or.inr h'))
            refine Or.inr ⟨Or.inr h2.1, ?_, ?_⟩
            · exact h2.2 (c0, true) (List.mem_cons.mpr (Or.inl rfl))
            · intro r hrm
              exact h2.2 (r, false)
                (List.mem_cons.mpr (Or.inr (List.mem_map.mpr ⟨r, hrm, rfl⟩)))
    · show (unregisterAll (RegisterNode { UnregisterNode s' c0 true with
        m_Root := setNode (UnregisterNode s' c0 true).m_Root (p ++ [0])
          (Node.mk c0 false []) } c0 false)
        (Node.mk c0 false [] :: rest.map fun r => Node.mk r false [])
          ).m_AllocatedRegions = s.m_AllocatedRegions
      rw [unregisterAll_alloc _ _ hall]
      show eraseKey c0 s'.m_AllocatedRegions = s.m_AllocatedRegions
      refine sortedW_ext (sorted_eraseKey _ hpre'.sortA) hInv.sortA ?_
      intro x
      rw [mem_eraseKey, hpre'.memA x, hpairs', hInv.memA x, hdec',
        mem_append_cons_flag (by decide)]
      constructor
      · rintro ⟨hm, hne0⟩
        rcases List.mem_append.mp hm with h | h
        · rcases List.mem_append.mp h with h' | h'
          · exact List.mem_append.mpr (Or.inl h')
          · rcases List.mem_cons.mp h' with he | h''
            · exact absurd (congrArg Prod.fst he) hne0
            · obtain ⟨r, _, he⟩ := List.mem_map.mp h''
              have hfb : (false : Bool) = true := (Prod.ext_iff.mp he).2
              exact absurd hfb (by decide)
        · exact List.mem_append.mpr (Or.inr h)
      · intro hm
        have hne0 : x ≠ c0 := by
          intro he
          rw [he] at hm
          have hhd : (c0, true) ∈ ((c0, true) ::
              rest.map fun r => (r, false)) := List.mem_cons.mpr (Or.inl rfl)
          rcases List.mem_append.mp hm with h | h
          · exact (pairwise_ne_cross hneS' _ hhd _ (Or.inl h)) rfl
          · exact (pairwise_ne_cross hneS' _ hhd _ (Or.inr h)) rfl
        refine ⟨?_, hne0⟩
        rcases List.mem_append.mp hm with h | h
        · exact List.mem_append.mpr (Or.inl (List.mem_append.mpr (Or.inl h)))
        · exact List.mem_append.mpr (Or.inr h)
  rw [hY, mergeAscend_canonical_id (parentPath p) s hInv.toPre hInv.canon]

open DynamicAtlasManager in
/-- A state satisfying the invariant whose allocated map is empty is the
freshly constructed state: the canonical tree collapses to the single free
root leaf and both indices hold exactly that leaf. -/
theorem empty_alloc_is_new {s : DynamicAtlasManager} (hInv : ManagerInv s)
    (h : s.m_AllocatedRegions = []) :
    s = DynamicAtlasManager.new s.m_Width s.m_Height := by
  have hno : ∀ r, (r, true) ∉ s.m_Root.leafPairs := by
    intro r hr
    have hm := (hInv.memA r).mpr hr
    rw [h] at hm
    simp at hm
  have htroot : s.m_Root =
      Node.mk (⟨0, 0, s.m_Width, s.m_Height⟩ : Region) false [] := by
    have h0 := canonical_all_free_leaf s.m_Root hInv.canon hno
    rw [h0, hInv.rootR]
  have hpairs : s.m_Root.leafPairs =
      [((⟨0, 0, s.m_Width, s.m_Height⟩ : Region), false)] := by
    rw [htroot]
    rfl
  refine manager_ext rfl rfl ?_ ?_ ?_ ?_
  · exact htroot
  · refine sortedW_ext hInv.sortW
      (by simp [new, RegisterNode, insertSorted, SortedBy]) ?_
    intro x
    rw [hInv.memW x, hpairs]
    simp [new, RegisterNode, insertSorted]
  · refine sortedH_ext hInv.sortH
      (by simp [new, RegisterNode, insertSorted, SortedBy]) ?_
    intro x
    rw [hInv.memH x, hpairs]
    simp [new, RegisterNode, insertSorted]
  · exact h

open DynamicAtlasManager in
/-- C4: for every reachable manager state and positive `w`, `h` for which
`Allocate(w, h)` succeeds (returns a non-empty region), immediately calling
`Free` on the returned region restores the manager to a state identical to
the pre-allocate state (same tree, same free indices, same allocated map);
and a reachable state whose allocated map is empty is identical to the
state immediately after construction. -/
theorem C4_alloc_free_roundtrip :
    ∀ s : DynamicAtlasManager, Reachable s →
    (∀ W H : Nat, 0 < W → 0 < H →
      (s.Allocate W H).1.IsEmpty = false →
      (s.Allocate W H).2.Free (s.Allocate W H).1 = (s, InvalidRegion)) ∧
    (s.m_AllocatedRegions = [] →
      s = DynamicAtlasManager.new s.m_Width s.m_Height) := by
  intro s hs
  have hInv := reachable_Inv hs
  refine ⟨?_, fun h => empty_alloc_is_new hInv h⟩
  intro W H hW hH hne
  cases hcs : chooseSource s W H with
  | none =>
    rw [Allocate_eq_none hcs] at hne
    simp [Region.default, Region.IsEmpty] at hne
  | some R =>
    obtain ⟨hRmem, hWle, hHle⟩ := chooseSource_fits hInv hcs
    cases hfp : s.m_Root.findLeafPath R false with
    | none =>
      obtain ⟨p, hp⟩ := findLeafPath_complete _ _ _ hRmem
      rw [hp] at hfp
      exact absurd hfp (by simp)
    | some p =>
      have hgp := findLeafPath_sound _ _ _ _ hfp
      cases hsr : splitRegions R W H with
      | nil => exact roundtrip_exact hInv hcs hfp hsr
      | cons c0 rest =>
        have hIA := Allocate_Inv hInv W H hW hH
        rw [Allocate_eq_split hcs hfp hsr] at hIA
        dsimp only at hIA
        rw [Allocate_eq_split hcs hfp hsr]
        dsimp only
        have hroot' : (registerAll { s.UnregisterNode R false with
            m_Root := setNode (s.UnregisterNode R false).m_Root p
              (Node.mk R false (makeChildren (c0 :: rest))) }
            ((c0, true) :: rest.map fun r => (r, false))).m_Root =
            setNode s.m_Root p (Node.mk R false (makeChildren (c0 :: rest))) := by
          rw [registerAll_m_Root]
          dsimp only
          rw [UnregisterNode_false]
        exact free_after_split hInv hgp hIA.1.toPre hIA.2.1 hIA.2.2 hroot'

/-- C4 witness: a concrete allocate/free round trip on a fresh 4×4 atlas. -/
theorem C4_alloc_free_roundtrip_witness :
    ((DynamicAtlasManager.new 4 4).Allocate 2 2).2.Free
      ((DynamicAtlasManager.new 4 4).Allocate 2 2).1 =
      (DynamicAtlasManager.new 4 4, InvalidRegion) :=
  (C4_alloc_free_roundtrip (DynamicAtlasManager.new 4 4)
      (Reachable.init 4 4 (by decide) (by decide) (by decide)
        (by decide))).1 2 2 (by decide) (by decide) (by decide)

open DynamicAtlasManager in
/-- Whenever `splitRegions` is nonempty, its first element is the placed
rectangle `(R.x, R.y, W, H)` (no side conditions needed). -/
theorem splitRegions_head {R : Region} {W H : Nat} {c0 : Region}
    {rest : List Region} (h : splitRegions R W H = c0 :: rest) :
    c0 = ⟨R.x, R.y, W, H⟩ := by
  unfold splitRegions at h
  split_ifs at h <;>
    first
      | (simp only [List.cons.injEq] at h; exact h.1.symm)
      | (exact absurd h (by simp))

namespace DynamicAtlasManager

theorem Allocate_eq_nopath {s : DynamicAtlasManager} {W H : Nat} {R : Region}
    (hcs : chooseSource s W H = some R)
    (hfp : s.m_Root.findLeafPath R false = none) :
    s.Allocate W H = (Region.default, s) := by
  unfold Allocate
  rw [hcs]
  dsimp only
  rw [hfp]

end DynamicAtlasManager

/-- Any entry lying beside the distinguished one in a pairwise-disjoint
leaf list is disjoint from it. -/
theorem pairs_disjoint_of_decomp {A B : List (Region × Bool)} {R : Region}
    {b : Bool} {x : Region × Bool}
    (hpw : List.Pairwise (fun x y : Region × Bool => disjointR x.1 y.1)
      (A ++ (R, b) :: B))
    (hx : x ∈ A ∨ x ∈ B) : disjointR R x.1 := by
  rw [List.pairwise_append] at hpw
  obtain ⟨hA, hRB, hcross⟩ := hpw
  rcases hx with hx | hx
  · exact disjointR_symm (hcross x hx (R, b) (List.mem_cons.mpr (Or.inl rfl)))
  · exact (List.pairwise_cons.mp hRB).1 x hx

open DynamicAtlasManager in
/-- C7: calling `Free` with a region that is not in the allocated map
leaves the manager state (partition tree, both free indices, allocated map)
exactly unchanged. -/
theorem C7_free_unknown_is_noop (s : DynamicAtlasManager) (R : Region)
    (h : R ∉ s.m_AllocatedRegions) : (s.Free R).1 = s := by
  rw [Free_eq_miss h]

/-- C7 witness: freeing a never-allocated region of a fresh manager. -/
theorem C7_free_unknown_is_noop_witness :
    (⟨1, 1, 2, 2⟩ : Region) ∉
      (DynamicAtlasManager.new 100 100).m_AllocatedRegions ∧
    ((DynamicAtlasManager.new 100 100).Free ⟨1, 1, 2, 2⟩).1 =
      DynamicAtlasManager.new 100 100 :=
  ⟨by decide, C7_free_unknown_is_noop _ _ (by decide)⟩

open DynamicAtlasManager in
/-- C10: `Free` writes the sentinel `InvalidRegion = (UINT_MAX, UINT_MAX,
0, 0)` into the caller's region only on the success path; when the region
is not in the allocated map it returns early and the caller's region is
left unchanged. -/
theorem C10_free_region_handle (s : DynamicAtlasManager) (R : Region)
    (hs : Reachable s) :
    (R ∈ s.m_AllocatedRegions → (s.Free R).2 = InvalidRegion) ∧
    (R ∉ s.m_AllocatedRegions → (s.Free R).2 = R) ∧
    InvalidRegion = ⟨UINT_MAX, UINT_MAX, 0, 0⟩ := by
  refine ⟨?_, fun h => by rw [Free_eq_miss h], rfl⟩
  intro hmem
  have hInv := reachable_Inv hs
  have hRmem : (R, true) ∈ s.m_Root.leafPairs := (hInv.memA R).mp hmem
  cases hfp : s.m_Root.findLeafPath R true with
  | none =>
    obtain ⟨p, hp⟩ := findLeafPath_complete _ _ _ hRmem
    rw [hp] at hfp
    exact absurd hfp (by simp)
  | some p => rw [Free_eq_found hmem hfp]

/-- C10 witness: a successful free yields `InvalidRegion`; a failed free
returns the caller's region unchanged. -/
theorem C10_free_region_handle_witness :
    (⟨0, 0, 10, 20⟩ : Region) ∈
      ((DynamicAtlasManager.new 100 100).Allocate 10 20).2.m_AllocatedRegions ∧
    ((((DynamicAtlasManager.new 100 100).Allocate 10 20).2).Free
      ⟨0, 0, 10, 20⟩).2 = InvalidRegion ∧
    ((DynamicAtlasManager.new 100 100).Free ⟨5, 5, 1, 1⟩).2 = ⟨5, 5, 1, 1⟩ :=
  ⟨by decide,
   (C10_free_region_handle _ _
      (Reachable.alloc _ 10 20 (by decide) (by decide) (by decide) (by decide)
        (Reachable.init 100 100 (by decide) (by decide) (by decide)
          (by decide)))).1 (by decide),
   (C10_free_region_handle _ _
      (Reachable.init 100 100 (by decide) (by decide) (by decide)
        (by decide))).2.1 (by decide)⟩

open DynamicAtlasManager in
/-- C5 (corrected): when both candidates exist with equal (nonzero) 32-bit
areas, `AreaW < AreaH` is false and the code takes `it_h`: the by-height
candidate is chosen, not the by-width one claimed by the spec. -/
theorem C5_tie_prefers_height_candidate {s : DynamicAtlasManager}
    {W H : Nat} {a b : Region}
    (hA : candidateByWidth s.m_FreeRegionsByWidth W H = some a)
    (hB : candidateByHeight s.m_FreeRegionsByHeight W H = some b)
    (harea : area32 a = area32 b) (hpos : 0 < area32 a) :
    chooseSource s W H = some b := by
  unfold chooseSource
  dsimp only
  rw [hA, hB]
  simp only [candArea]
  rw [if_pos ⟨hpos, harea ▸ hpos⟩, if_neg (by omega)]

open DynamicAtlasManager in
/-- C5 counterexample: a reachable state and a request on which both
candidates exist, the areas tie, and `Allocate`'s selection is the
by-height candidate, which differs from the by-width candidate. -/
theorem C5_counterexample :
    Reachable ((DynamicAtlasManager.new 6 4).Allocate 4 2).2 ∧
    candidateByWidth
      (((DynamicAtlasManager.new 6 4).Allocate 4 2).2).m_FreeRegionsByWidth
      2 2 = some ⟨4, 0, 2, 4⟩ ∧
    candidateByHeight
      (((DynamicAtlasManager.new 6 4).Allocate 4 2).2).m_FreeRegionsByHeight
      2 2 = some ⟨0, 2, 4, 2⟩ ∧
    area32 ⟨4, 0, 2, 4⟩ = area32 ⟨0, 2, 4, 2⟩ ∧
    chooseSource ((DynamicAtlasManager.new 6 4).Allocate 4 2).2 2 2 =
      some ⟨0, 2, 4, 2⟩ ∧
    (⟨0, 2, 4, 2⟩ : Region) ≠ ⟨4, 0, 2, 4⟩ :=
  ⟨Reachable.alloc _ 4 2 (by decide) (by decide) (by decide) (by decide)
      (Reachable.init 6 4 (by decide) (by decide) (by decide) (by decide)),
   by decide, by decide, by decide, by decide, by decide⟩

open DynamicAtlasManager in
/-- C5 witness: the corrected tie-break applied to the concrete tie. -/
theorem C5_tie_prefers_height_candidate_witness :
    chooseSource ((DynamicAtlasManager.new 6 4).Allocate 4 2).2 2 2 =
      some ⟨0, 2, 4, 2⟩ :=
  @C5_tie_prefers_height_candidate ((DynamicAtlasManager.new 6 4).Allocate 4 2).2
    2 2 ⟨4, 0, 2, 4⟩ ⟨0, 2, 4, 2⟩ (by decide) (by decide) (by decide)
    (by decide)

open DynamicAtlasManager in
/-- C6 (corrected): an exact-fit allocation (`R.width = W`, `R.height = H`)
marks the leaf allocated without splitting, returns `R`, and removes
exactly `R` from the two free indices — it does not empty them. -/
theorem C6_exact_fit_indices {s : DynamicAtlasManager} {W H : Nat}
    {R : Region} {p : List Nat}
    (hcs : chooseSource s W H = some R)
    (hfp : s.m_Root.findLeafPath R false = some p)
    (hw : R.width = W) (hh : R.height = H) :
    (s.Allocate W H).1 = R ∧
    (s.Allocate W H).2.m_FreeRegionsByWidth =
      eraseKey R s.m_FreeRegionsByWidth ∧
    (s.Allocate W H).2.m_FreeRegionsByHeight =
      eraseKey R s.m_FreeRegionsByHeight ∧
    (s.Allocate W H).2.m_Root = setNode s.m_Root p (Node.mk R true []) := by
  have hsr : splitRegions R W H = [] :=
    splitRegions_nil_iff.mpr ⟨by omega, by omega⟩
  rw [Allocate_eq_exact hcs hfp hsr]
  refine ⟨rfl, ?_, ?_, ?_⟩ <;>
    (rw [UnregisterNode_false, RegisterNode_true])

open DynamicAtlasManager in
/-- C6 counterexample: an exact-fit allocation on a reachable state after
which both free indices are still nonempty. -/
theorem C6_counterexample :
    Reachable ((DynamicAtlasManager.new 6 4).Allocate 4 2).2 ∧
    chooseSource ((DynamicAtlasManager.new 6 4).Allocate 4 2).2 2 4 =
      some ⟨4, 0, 2, 4⟩ ∧
    (⟨4, 0, 2, 4⟩ : Region).width = 2 ∧
    (⟨4, 0, 2, 4⟩ : Region).height = 4 ∧
    ((((DynamicAtlasManager.new 6 4).Allocate 4 2).2).Allocate 2 4
      ).2.m_FreeRegionsByWidth ≠ [] ∧
    ((((DynamicAtlasManager.new 6 4).Allocate 4 2).2).Allocate 2 4
      ).2.m_FreeRegionsByHeight ≠ [] :=
  ⟨Reachable.alloc _ 4 2 (by decide) (by decide) (by decide) (by decide)
      (Reachable.init 6 4 (by decide) (by decide) (by decide) (by decide)),
   by decide, by decide, by decide, by decide, by decide⟩

open DynamicAtlasManager in
/-- C6 witness: the corrected index bookkeeping at the concrete exact fit. -/
theorem C6_exact_fit_indices_witness :
    ((((DynamicAtlasManager.new 6 4).Allocate 4 2).2).Allocate 2 4).1 =
      ⟨4, 0, 2, 4⟩ ∧
    ((((DynamicAtlasManager.new 6 4).Allocate 4 2).2).Allocate 2 4
      ).2.m_FreeRegionsByWidth = eraseKey ⟨4, 0, 2, 4⟩
        (((DynamicAtlasManager.new 6 4).Allocate 4 2).2).m_FreeRegionsByWidth :=
  ⟨(@C6_exact_fit_indices ((DynamicAtlasManager.new 6 4).Allocate 4 2).2
      2 4 ⟨4, 0, 2, 4⟩ [1] (by decide) (by decide) (by decide) (by decide)).1,
   (@C6_exact_fit_indices ((DynamicAtlasManager.new 6 4).Allocate 4 2).2
      2 4 ⟨4, 0, 2, 4⟩ [1] (by decide) (by decide) (by decide)
      (by decide)).2.1⟩

open DynamicAtlasManager in
/-- C8 (corrected): a zero-dimension `Allocate` returns an empty region in
the release build modelled here, but it is not a no-op in general (see the
counterexample): the degenerate request is processed like any other. -/
theorem C8_zero_dim_returns_empty (s : DynamicAtlasManager) (W H : Nat)
    (h : W = 0 ∨ H = 0) : (s.Allocate W H).1.IsEmpty = true := by
  cases hcs : chooseSource s W H with
  | none => rw [Allocate_eq_none hcs]; rfl
  | some R =>
    cases hfp : s.m_Root.findLeafPath R false with
    | none => rw [Allocate_eq_nopath hcs hfp]; rfl
    | some p =>
      cases hsr : splitRegions R W H with
      | nil =>
        rw [Allocate_eq_exact hcs hfp hsr]
        obtain ⟨h1, h2⟩ := splitRegions_nil_iff.mp hsr
        dsimp only
        rcases h with rfl | rfl
        · have hz : R.width = 0 := by omega
          simp [Region.IsEmpty, hz]
        · have hz : R.height = 0 := by omega
          simp [Region.IsEmpty, hz]
      | cons c0 rest =>
        rw [Allocate_eq_split hcs hfp hsr]
        dsimp only
        rw [splitRegions_head hsr]
        rcases h with rfl | rfl <;> simp [Region.IsEmpty]

open DynamicAtlasManager in
/-- C8 counterexample: a zero-width `Allocate` on a fresh manager mutates
the state (it is not the no-op claimed by the spec), even though the
returned region is empty. -/
theorem C8_counterexample :
    ((DynamicAtlasManager.new 100 100).Allocate 0 5).2 ≠
      DynamicAtlasManager.new 100 100 ∧
    ((DynamicAtlasManager.new 100 100).Allocate 0 5).1.IsEmpty = true :=
  ⟨by decide, by decide⟩

open DynamicAtlasManager in
/-- C8 witness: the corrected claim at the concrete zero-width request. -/
theorem C8_zero_dim_returns_empty_witness :
    ((DynamicAtlasManager.new 100 100).Allocate 0 5).1.IsEmpty = true :=
  C8_zero_dim_returns_empty (DynamicAtlasManager.new 100 100) 0 5 (Or.inl rfl)

open DynamicAtlasManager in
/-- C2: the four split layouts produced when the chosen source leaf `R`
strictly exceeds the request, exactly as in the code (two children when
one dimension exceeds, three children with the long-axis layouts when both
exceed), and in every split `Child(0)` is the returned placed rectangle,
marked allocated, while the other children are free leaves. -/
theorem C2_split_layouts {s : DynamicAtlasManager} {W H : Nat} {R : Region}
    {p : List Nat}
    (hcs : chooseSource s W H = some R)
    (hfp : s.m_Root.findLeafPath R false = some p) :
    (W < R.width → H < R.height → R.height < R.width →
      splitRegions R W H = [⟨R.x, R.y, W, H⟩,
        ⟨R.x + W, R.y, R.width - W, R.height⟩,
        ⟨R.x, R.y + H, W, R.height - H⟩]) ∧
    (W < R.width → H < R.height → ¬R.height < R.width →
      splitRegions R W H = [⟨R.x, R.y, W, H⟩,
        ⟨R.x, R.y + H, R.width, R.height - H⟩,
        ⟨R.x + W, R.y, R.width - W, H⟩]) ∧
    (W < R.width → ¬H < R.height →
      splitRegions R W H = [⟨R.x, R.y, W, H⟩,
        ⟨R.x + W, R.y, R.width - W, R.height⟩]) ∧
    (¬W < R.width → H < R.height →
      splitRegions R W H = [⟨R.x, R.y, W, H⟩,
        ⟨R.x, R.y + H, R.width, R.height - H⟩]) ∧
    (∀ c0 rest, splitRegions R W H = c0 :: rest →
      (s.Allocate W H).1 = c0 ∧
      (s.Allocate W H).2.m_Root = setNode s.m_Root p
        (Node.mk R false
          (Node.mk c0 true [] :: rest.map fun r => Node.mk r false []))) := by
  refine ⟨?_, ?_, ?_, ?_, ?_⟩
  · intro h1 h2 h3
    unfold splitRegions
    rw [if_pos ⟨h1, h2⟩, if_pos h3]
  · intro h1 h2 h3
    unfold splitRegions
    rw [if_pos ⟨h1, h2⟩, if_neg h3]
  · intro h1 h2
    unfold splitRegions
    rw [if_neg (fun hc => h2 hc.2), if_pos h1]
  · intro h1 h2
    unfold splitRegions
    rw [if_neg (fun hc => h1 hc.1), if_neg h1, if_pos h2]
  · intro c0 rest hsr
    constructor
    · rw [Allocate_eq_split hcs hfp hsr]
    · rw [Allocate_eq_split hcs hfp hsr]
      dsimp only
      rw [registerAll_m_Root]
      dsimp only
      rw [UnregisterNode_false]
      dsimp only
      rw [makeChildren]

open DynamicAtlasManager in
/-- C2 witness: the horizontal three-way split on a concrete 6×4 atlas. -/
theorem C2_split_layouts_witness :
    splitRegions ⟨0, 0, 6, 4⟩ 4 2 =
      [⟨0, 0, 4, 2⟩, ⟨4, 0, 2, 4⟩, ⟨0, 2, 4, 2⟩] ∧
    ((DynamicAtlasManager.new 6 4).Allocate 4 2).1 = ⟨0, 0, 4, 2⟩ ∧
    ((DynamicAtlasManager.new 6 4).Allocate 4 2).2.m_Root =
      setNode (DynamicAtlasManager.new 6 4).m_Root []
        (Node.mk ⟨0, 0, 6, 4⟩ false
          (Node.mk ⟨0, 0, 4, 2⟩ true [] ::
            [(⟨4, 0, 2, 4⟩ : Region), ⟨0, 2, 4, 2⟩].map
              fun r => Node.mk r false [])) :=
  ⟨(@C2_split_layouts (DynamicAtlasManager.new 6 4) 4 2 ⟨0, 0, 6, 4⟩ []
      (by decide) (by decide)).1 (by decide) (by decide) (by decide),
   ((@C2_split_layouts (DynamicAtlasManager.new 6 4) 4 2 ⟨0, 0, 6, 4⟩ []
      (by decide) (by decide)).2.2.2.2 ⟨0, 0, 4, 2⟩
      [⟨4, 0, 2, 4⟩, ⟨0, 2, 4, 2⟩] (by decide)).1,
   ((@C2_split_layouts (DynamicAtlasManager.new 6 4) 4 2 ⟨0, 0, 6, 4⟩ []
      (by decide) (by decide)).2.2.2.2 ⟨0, 0, 4, 2⟩
      [⟨4, 0, 2, 4⟩, ⟨0, 2, 4, 2⟩] (by decide)).2⟩

open DynamicAtlasManager in
/-- C3: the bottom-up merge loop of `Free`.  The successful `Free` hands
control to the ascent started at the freed leaf's parent; the merge
condition holds exactly when every child is a free leaf; while it holds the
children are unregistered, dropped, and the merged node re-registered, and
the loop ascends to the parent; the ascent stops at the first node failing
the condition, and the root's parent is null. -/
theorem C3_merge_loop (s : DynamicAtlasManager) :
    (mergeAscend s none = s) ∧
    (∀ N : Node, N.CanMergeChildren = true ↔
      ∀ c ∈ N.Children, c.isFreeLeaf = true) ∧
    (∀ (p : List Nat) (N : Node), getNode s.m_Root p = some N →
      ¬N.CanMergeChildren = true → mergeAscend s (some p) = s) ∧
    (∀ (p : List Nat) (N : Node), getNode s.m_Root p = some N →
      N.CanMergeChildren = true →
      mergeAscend s (some p) =
        mergeAscend (RegisterNode { unregisterAll s N.Children with
            m_Root := setNode (unregisterAll s N.Children).m_Root p
              (Node.mk N.R N.IsAllocated []) } N.R N.IsAllocated)
          (parentPath p)) ∧
    (∀ (R : Region) (p : List Nat), R ∈ s.m_AllocatedRegions →
      s.m_Root.findLeafPath R true = some p →
      s.Free R =
        (mergeAscend (RegisterNode { s.UnregisterNode R true with
            m_Root := setNode (s.UnregisterNode R true).m_Root p
              (Node.mk R false []) } R false) (parentPath p),
          InvalidRegion)) ∧
    (∀ (q : List Nat) (i : Nat), parentPath (q ++ [i]) = some q) ∧
    (parentPath [] = none) := by
  refine ⟨mergeAscend_none s, ?_, ?_, ?_, ?_, ?_, rfl⟩
  · intro N
    exact canMerge_iff_allFree N
  · intro p N hN hcm
    exact mergeAscend_stop hN hcm
  · intro p N hN hcm
    exact mergeAscend_merge hN hcm
  · intro R p hmem hfp
    exact Free_eq_found hmem hfp
  · intro q i
    rw [parentPath_of_ne_nil (by simp)]
    simp

open DynamicAtlasManager in
/-- C3 witness: on a concrete state with one allocated child the ascent
stops at the root, whose parent is null. -/
theorem C3_merge_loop_witness :
    getNode (((DynamicAtlasManager.new 4 4).Allocate 2 2).2).m_Root [] =
      some (Node.mk ⟨0, 0, 4, 4⟩ false
        [Node.mk ⟨0, 0, 2, 2⟩ true [], Node.mk ⟨0, 2, 4, 2⟩ false [],
         Node.mk ⟨2, 0, 2, 2⟩ false []]) ∧
    mergeAscend (((DynamicAtlasManager.new 4 4).Allocate 2 2).2) (some []) =
      ((DynamicAtlasManager.new 4 4).Allocate 2 2).2 ∧
    parentPath ([] ++ [0]) = some [] ∧
    parentPath [] = none :=
  ⟨by decide,
   (C3_merge_loop (((DynamicAtlasManager.new 4 4).Allocate 2 2).2)).2.2.1 []
     (Node.mk ⟨0, 0, 4, 4⟩ false
       [Node.mk ⟨0, 0, 2, 2⟩ true [], Node.mk ⟨0, 2, 4, 2⟩ false [],
        Node.mk ⟨2, 0, 2, 2⟩ false []]) (by decide) (by decide),
   (C3_merge_loop (((DynamicAtlasManager.new 4 4).Allocate 2 2).2)
     ).2.2.2.2.2.1 [] 0,
   (C3_merge_loop (((DynamicAtlasManager.new 4 4).Allocate 2 2).2)
     ).2.2.2.2.2.2⟩

open DynamicAtlasManager in
/-- C9: candidate areas are computed as `width * height` in wrapping 32-bit
arithmetic with `0` as the no-candidate sentinel, so a free leaf whose true
area is a nonzero multiple of `2^32` is treated as nonexistent: on a fresh
65536×65536 atlas, `Allocate(1, 1)` finds the fitting root leaf as the
by-width candidate, computes area `0`, selects no source, and returns an
empty region. -/
theorem C9_area_overflow :
    (∀ r : Region, area32 r = r.width * r.height % 2 ^ 32) ∧
    candArea none = 0 ∧
    Reachable (DynamicAtlasManager.new 65536 65536) ∧
    ((⟨0, 0, 65536, 65536⟩ : Region), false) ∈
      (DynamicAtlasManager.new 65536 65536).m_Root.leafPairs ∧
    1 ≤ (⟨0, 0, 65536, 65536⟩ : Region).width ∧
    1 ≤ (⟨0, 0, 65536, 65536⟩ : Region).height ∧
    candidateByWidth
      (DynamicAtlasManager.new 65536 65536).m_FreeRegionsByWidth 1 1 =
      some ⟨0, 0, 65536, 65536⟩ ∧
    area32 ⟨0, 0, 65536, 65536⟩ = 0 ∧
    chooseSource (DynamicAtlasManager.new 65536 65536) 1 1 = none ∧
    ((DynamicAtlasManager.new 65536 65536).Allocate 1 1).1.IsEmpty = true :=
  ⟨fun r => rfl, rfl,
   Reachable.init 65536 65536 (by decide) (by decide) (by decide) (by decide),
   by decide, by decide, by decide, by decide, by decide, by decide,
   by decide⟩

open DynamicAtlasManager in
/-- C1 counterexample: on the reachable fresh 65536×65536 atlas the request
(1, 1) has a fitting free leaf, yet `Allocate` returns an empty region
(the 32-bit area of the only candidate wraps to the `0` sentinel). -/
theorem C1_counterexample :
    Reachable (DynamicAtlasManager.new 65536 65536) ∧
    (0 : Nat) < 1 ∧
    ((⟨0, 0, 65536, 65536⟩ : Region), false) ∈
      (DynamicAtlasManager.new 65536 65536).m_Root.leafPairs ∧
    1 ≤ (⟨0, 0, 65536, 65536⟩ : Region).width ∧
    1 ≤ (⟨0, 0, 65536, 65536⟩ : Region).height ∧
    ((DynamicAtlasManager.new 65536 65536).Allocate 1 1).1.IsEmpty = true :=
  ⟨Reachable.init 65536 65536 (by decide) (by decide) (by decide) (by decide),
   by decide, by decide, by decide, by decide, by decide⟩

open DynamicAtlasManager in
/-- C1 (corrected): on reachable states whose atlas area stays below
`2^32` (so no candidate area can wrap to the sentinel), `Allocate(w, h)`
with positive `w`, `h` returns an empty region iff no free leaf is at least
`w × h`; a non-empty result has exactly the requested size, lies within
the atlas, and is disjoint from every currently allocated region. -/
theorem C1_allocate_contract {s : DynamicAtlasManager} (hs : Reachable s)
    (hsmall : s.m_Width * s.m_Height < U32) {W H : Nat}
    (hW : 0 < W) (hH : 0 < H) :
    ((s.Allocate W H).1.IsEmpty = true ↔
      ¬∃ r : Region, (r, false) ∈ s.m_Root.leafPairs ∧
        W ≤ r.width ∧ H ≤ r.height) ∧
    ((s.Allocate W H).1.IsEmpty = false →
      (s.Allocate W H).1.width = W ∧ (s.Allocate W H).1.height = H ∧
      containsR ⟨0, 0, s.m_Width, s.m_Height⟩ (s.Allocate W H).1 ∧
      ∀ r ∈ s.m_AllocatedRegions, disjointR (s.Allocate W H).1 r) := by
  have hInv := reachable_Inv hs
  have harea : ∀ r : Region, (r, false) ∈ s.m_Root.leafPairs →
      0 < area32 r := by
    intro r hr
    obtain ⟨hcont, hw, hh⟩ := valid_pairs_facts _ hInv.valid _ hr
    rw [hInv.rootR] at hcont
    dsimp only at hcont hw hh
    have hle : r.width * r.height ≤ s.m_Width * s.m_Height := by
      unfold containsR at hcont
      dsimp only at hcont
      exact Nat.mul_le_mul (by omega) (by omega)
    have hlt : r.width * r.height < U32 := lt_of_le_of_lt hle hsmall
    show 0 < r.width * r.height % U32
    rw [Nat.mod_eq_of_lt hlt]
    exact Nat.mul_pos hw hh
  have hsucc : ∀ R, chooseSource s W H = some R →
      (s.Allocate W H).1 = ⟨R.x, R.y, W, H⟩ ∨
      ((s.Allocate W H).1 = R ∧ R.width = W ∧ R.height = H) := by
    intro R hcs
    obtain ⟨hRmem, hWle, hHle⟩ := chooseSource_fits hInv hcs
    cases hfp : s.m_Root.findLeafPath R false with
    | none =>
      obtain ⟨p, hp⟩ := findLeafPath_complete _ _ _ hRmem
      rw [hp] at hfp
      exact absurd hfp (by simp)
    | some p =>
      cases hsr : splitRegions R W H with
      | nil =>
        right
        obtain ⟨h1, h2⟩ := splitRegions_nil_iff.mp hsr
        rw [Allocate_eq_exact hcs hfp hsr]
        exact ⟨rfl, by omega, by omega⟩
      | cons c0 rest =>
        left
        rw [Allocate_eq_split hcs hfp hsr]
        exact splitRegions_head hsr
  constructor
  · constructor
    · intro hemp
      rintro ⟨r, hr, hwr, hhr⟩
      cases hcs : chooseSource s W H with
      | none =>
        obtain ⟨hcw, hch⟩ := chooseSource_none_iff.mp hcs
        cases hcand : candidateByWidth s.m_FreeRegionsByWidth W H with
        | none => exact candW_none hcand r ((hInv.memW r).mpr hr) ⟨hwr, hhr⟩
        | some c =>
          rw [hcand] at hcw
          have hc := candW_some hInv.sortW hcand
          have hpos := harea c ((hInv.memW c).mp hc.1)
          simp only [candArea] at hcw
          omega
      | some R =>
        rcases hsucc R hcs with he | ⟨he, hw', hh'⟩
        · rw [he] at hemp
          simp [Region.IsEmpty] at hemp
          omega
        · rw [he] at hemp
          simp [Region.IsEmpty] at hemp
          omega
    · intro hno
      cases hcs : chooseSource s W H with
      | none => rw [Allocate_eq_none hcs]; rfl
      | some R =>
        obtain ⟨hRmem, hWle, hHle⟩ := chooseSource_fits hInv hcs
        exact absurd ⟨R, hRmem, hWle, hHle⟩ hno
  · intro hne
    cases hcs : chooseSource s W H with
    | none =>
      rw [Allocate_eq_none hcs] at hne
      simp [Region.default, Region.IsEmpty] at hne
    | some R =>
      obtain ⟨hRmem, hWle, hHle⟩ := chooseSource_fits hInv hcs
      obtain ⟨hcontR, hRw, hRh⟩ := valid_pairs_facts _ hInv.valid _ hRmem
      cases hfp : s.m_Root.findLeafPath R false with
      | none =>
        obtain ⟨p, hp⟩ := findLeafPath_complete _ _ _ hRmem
        rw [hp] at hfp
        exact absurd hfp (by simp)
      | some p =>
        have hgp := findLeafPath_sound _ _ _ _ hfp
        obtain ⟨A, B, hdec0, _⟩ := leafPairs_decomp p s.m_Root _ hgp
        have hdec' : s.m_Root.leafPairs = A ++ (R, false) :: B := by
          simpa [Node.leafPairs] using hdec0
        have hpwd := valid_pairs_pairwise _ hInv.valid
        rw [hdec'] at hpwd
        have hRdisj : ∀ r ∈ s.m_AllocatedRegions, disjointR R r := by
          intro r hrm
          have hrp : (r, true) ∈ s.m_Root.leafPairs := (hInv.memA r).mp hrm
          rw [hdec'] at hrp
          have hrp' : (r, true) ∈ A ++ B :=
            (mem_append_cons_flag (by decide)).mp hrp
          exact pairs_disjoint_of_decomp hpwd (List.mem_append.mp hrp')
        have hcontAtlas : containsR ⟨0, 0, s.m_Width, s.m_Height⟩ R := by
          rw [← hInv.rootR]
          exact hcontR
        cases hsr : splitRegions R W H with
        | nil =>
          obtain ⟨h1, h2⟩ := splitRegions_nil_iff.mp hsr
          rw [Allocate_eq_exact hcs hfp hsr]
          dsimp only
          exact ⟨by omega, by omega, hcontAtlas, hRdisj⟩
        | cons c0 rest =>
          obtain ⟨hc0, hlen, hfacts, hpw⟩ :=
            splitRegions_spec hW hH hWle hHle hsr
          rw [Allocate_eq_split hcs hfp hsr]
          dsimp only
          have hc0cont : containsR R c0 := (hfacts c0 (by simp)).1
          refine ⟨by rw [hc0], by rw [hc0],
            containsR_trans hcontAtlas hc0cont, fun r hrm =>
              disjointR_mono hc0cont (containsR_refl r) (hRdisj r hrm)⟩

open DynamicAtlasManager in
/-- C1 witness: the corrected contract evaluated on a fresh 4×4 atlas with
a 2×2 request. -/
theorem C1_allocate_contract_witness :
    ((((DynamicAtlasManager.new 4 4).Allocate 2 2).1.IsEmpty = true) ↔
      ¬∃ r : Region, (r, false) ∈
          (DynamicAtlasManager.new 4 4).m_Root.leafPairs ∧
        2 ≤ r.width ∧ 2 ≤ r.height) ∧
    (((DynamicAtlasManager.new 4 4).Allocate 2 2).1.IsEmpty = false →
      ((DynamicAtlasManager.new 4 4).Allocate 2 2).1.width = 2 ∧
      ((DynamicAtlasManager.new 4 4).Allocate 2 2).1.height = 2 ∧
      containsR ⟨0, 0, (DynamicAtlasManager.new 4 4).m_Width,
        (DynamicAtlasManager.new 4 4).m_Height⟩
        ((DynamicAtlasManager.new 4 4).Allocate 2 2).1 ∧
      ∀ r ∈ (DynamicAtlasManager.new 4 4).m_AllocatedRegions,
        disjointR ((DynamicAtlasManager.new 4 4).Allocate 2 2).1 r) :=
  C1_allocate_contract
    (Reachable.init 4 4 (by decide) (by decide) (by decide) (by decide))
    (by decide) (by decide) (by decide)
